import Mathlib

/-!
Verification of the mona task-graph engine (caf).

This file gives a shallow embedding of the parts of the code base that the
checked properties are about:

* the canonical-JSON serializer used for task identities, modelling the calls
  to json.dumps with sort_keys set and the default separators, specialized to
  the value shapes the program serializes (PyJson section);
* the in-memory Future dependency graph of caf2/caf.py (FutureModel section);
* the Session registry and create_task of caf2/caf.py (SessionModel section);
* the DAG traversal loop traverse_async of caf2/graph.py (Graph section);
* the persistent Cellar of caflib/Cellar.py: object store, task index,
  get_state, get_file, gc, seal_task and reset_task (CellarModel section).

Strings are modelled as lists of characters.  The SHA-1 digest is modelled as
an abstract function; theorems that need collision-freeness take an injective
digest function as a parameter, which is the standard reading of
content-addressed identity.
-/

namespace Mona

abbrev Str := List Char

/-! ### PyJson: model of json.dumps with sort_keys=True and default separators

Python json.dumps is called in Session.create_task (caf2/caf.py) on a list of
strings, and in TaskNode.seal (caflib/Configure.py) on a two-level dict of
strings.  Both calls pass sort_keys=True and leave the separators at their
default, which is comma-space and colon-space.  The encoder escapes the ASCII
characters double quote and backslash, uses short escapes for the usual
control characters, keeps printable ASCII, and writes everything else as a
backslash-u sequence (ensure_ascii behaviour). -/

def hexDigit (n : Nat) : Char :=
  if n < 10 then Char.ofNat (48 + n) else Char.ofNat (97 + (n - 10))

def hex4 (n : Nat) : List Char :=
  [hexDigit (n / 4096 % 16), hexDigit (n / 256 % 16),
   hexDigit (n / 16 % 16), hexDigit (n % 16)]

/-- Escape of a single character, following the CPython json encoder with
ensure_ascii: double quote and backslash get a backslash escape, the five
common control characters get their short escapes, printable ASCII is kept
as-is, and everything else becomes one or two backslash-u items. -/
def escapeChar (c : Char) : List Char :=
  if c = '"' then ['\\', '"']
  else if c = '\\' then ['\\', '\\']
  else if c = '\n' then ['\\', 'n']
  else if c = '\t' then ['\\', 't']
  else if c = '\r' then ['\\', 'r']
  else if c = Char.ofNat 8 then ['\\', 'b']
  else if c = Char.ofNat 12 then ['\\', 'f']
  else if 32 ≤ c.toNat ∧ c.toNat ≤ 126 then [c]
  else if c.toNat < 65536 then '\\' :: 'u' :: hex4 c.toNat
  else
    ('\\' :: 'u' :: hex4 (55296 + (c.toNat - 65536) / 1024)) ++
    ('\\' :: 'u' :: hex4 (56320 + (c.toNat - 65536) % 1024))

/-- JSON string literal: quote, escaped body, quote. -/
def encStr (s : Str) : Str :=
  '"' :: (s.flatMap escapeChar) ++ ['"']

/-- A character that the JSON encoder leaves unchanged: printable ASCII other
than the double quote and the backslash.  Every character appearing in rule
fullnames and hex hash ids is plain. -/
def plainChar (c : Char) : Bool :=
  decide (32 ≤ c.toNat) && decide (c.toNat ≤ 126) && !(c = '"') && !(c = '\\')

def plainStr (s : Str) : Bool :=
  s.all plainChar

/-- Strict lexicographic order on strings by code point, as used by Python
string comparison when sorted() orders dict keys. -/
def keyLT : Str → Str → Bool
  | [], [] => false
  | [], _ :: _ => true
  | _ :: _, [] => false
  | a :: as, b :: bs => if a = b then keyLT as bs else decide (a < b)

/-- Stable insertion into a key-sorted list of pairs: the new pair goes after
every strictly smaller key and before the first key that is not smaller. -/
def insertPair (p : Str × α) : List (Str × α) → List (Str × α)
  | [] => [p]
  | q :: qs => if keyLT q.1 p.1 then q :: insertPair p qs else p :: q :: qs

/-- Stable sort by key, modelling sorted() over dict items (dict keys are
unique, so comparing keys only agrees with comparing whole items). -/
def sortPairs : List (Str × α) → List (Str × α)
  | [] => []
  | p :: ps => insertPair p (sortPairs ps)

/-- Join with the default item separator, a comma followed by a space. -/
def sepByCommaSpace : List Str → Str
  | [] => []
  | [s] => s
  | s :: ss => s ++ ',' :: ' ' :: sepByCommaSpace ss

/-- JSON array whose items are already rendered. -/
def renderArr (items : List Str) : Str :=
  '[' :: sepByCommaSpace items ++ [']']

/-- JSON object whose values are already rendered: keys are sorted
(sort_keys=True) and the default key separator is a colon followed by a
space. -/
def renderObj (kvs : List (Str × Str)) : Str :=
  '{' :: sepByCommaSpace
    ((sortPairs kvs).map fun kv => encStr kv.1 ++ ':' :: ' ' :: kv.2) ++ ['}']

/-- Fully-qualified rule name, from get_fullname in caf2/caf.py: the module
name and the qualified name joined by a colon. -/
def get_fullname (module qualname : Str) : Str :=
  module ++ ':' :: qualname

/-- The string hashed by Session.create_task: json.dumps of the list holding
the rule fullname followed by the hash ids of the argument futures, with
sort_keys=True and default separators. -/
def taskHashStr (fullname : Str) (argHashes : List Str) : Str :=
  renderArr ((fullname :: argHashes).map encStr)

/-- The task blob built and hashed by TaskNode.seal in caflib/Configure.py:
json.dumps of the dict with keys command, inputs, symlinks, children and
childlinks, sort_keys=True, default separators.  Input contents have already
been replaced by their hashes via the digest function dig; childlink values
are pairs and therefore serialize as two-item arrays. -/
def sealBlob (dig : Str → Str) (command : Str)
    (inputs : List (Str × Str)) (symlinks : List (Str × Str))
    (children : List (Str × Str))
    (childlinks : List (Str × Str × Str)) : Str :=
  renderObj
    [ ("command".data, encStr command),
      ("inputs".data, renderObj (inputs.map fun kv => (kv.1, encStr (dig kv.2)))),
      ("symlinks".data, renderObj (symlinks.map fun kv => (kv.1, encStr kv.2))),
      ("children".data, renderObj (children.map fun kv => (kv.1, encStr kv.2))),
      ("childlinks".data, renderObj (childlinks.map fun kv =>
        (kv.1, renderArr [encStr kv.2.1, encStr kv.2.2]))) ]

/-! ### FutureModel: the in-memory Future graph of caf2/caf.py

Futures live in a world keyed by numeric ids.  Callbacks are abstract ids; the
observable behaviour of firing a callback or notifying a dependent is recorded
as an event in a trace, which lets the notification order be stated.  The
operations mirror Future.dep_done, Future.set_result, Future.add_ready_callback
and Future.add_done_callback; the failure of an assert statement is modelled by
returning none. -/

abbrev FId := Nat
abbrev CbId := Nat

variable {V : Type} [DecidableEq V]

structure FutData (V : Type) where
  hashid : Str
  pending : List FId
  depants : List FId
  result : Option V
  readyCbs : List CbId
  doneCbs : List CbId
deriving DecidableEq

abbrev World (V : Type) := List (FId × FutData V)

def setFut (w : World V) (i : FId) (d : FutData V) : World V :=
  w.map fun p => if p.1 = i then (i, d) else p

inductive Ev
  | depDone (waiter finished : FId)
  | readyCb (f : FId) (cb : CbId)
  | doneCb (f : FId) (cb : CbId)
deriving DecidableEq

/-- Future.dep_done: the waiter removes the finished future from its pending
set; if the pending set becomes empty the waiter is ready and its
ready-callbacks fire in registration order. -/
def dep_done (w : World V) (i : FId) (finished : FId) : Option (World V × List Ev) :=
  match List.lookup i w with
  | none => none
  | some d =>
    if finished ∈ d.pending then
      let d2 := { d with pending := d.pending.erase finished }
      let evs := Ev.depDone i finished ::
        (if d2.pending = [] then d2.readyCbs.map (Ev.readyCb i) else [])
      some (setFut w i d2, evs)
    else none

/-- The dependant-notification loop of Future.set_result. -/
def notifyDepants (finished : FId) : World V → List FId → Option (World V × List Ev)
  | w, [] => some (w, [])
  | w, j :: js => do
    let (w1, e1) ← dep_done w j finished
    let (w2, e2) ← notifyDepants finished w1 js
    pure (w2, e1 ++ e2)

/-- Future.set_result: asserts that the future is ready and its result unset,
stores the result, notifies every dependant, and then fires its own
done-callbacks in registration order. -/
def set_result (w : World V) (i : FId) (v : V) : Option (World V × List Ev) := do
  let d ← List.lookup i w
  if d.pending = [] ∧ d.result = none then
    let w1 := setFut w i { d with result := some v }
    let (w2, evs) ← notifyDepants i w1 d.depants
    some (w2, evs ++ d.doneCbs.map (Ev.doneCb i))
  else none

/-- Future.add_done_callback: asserts that the future is not yet done, then
appends the callback. -/
def add_done_callback (w : World V) (i : FId) (cb : CbId) : Option (World V) := do
  let d ← List.lookup i w
  if d.result = none then
    some (setFut w i { d with doneCbs := d.doneCbs ++ [cb] })
  else none

/-- Future.add_ready_callback: invoked immediately when the future is already
ready, otherwise enqueued. -/
def add_ready_callback (w : World V) (i : FId) (cb : CbId) : Option (World V × List Ev) := do
  let d ← List.lookup i w
  if d.pending = [] then some (w, [Ev.readyCb i cb])
  else some (setFut w i { d with readyCbs := d.readyCbs ++ [cb] }, [])

/-! ### SessionModel: Session.create_task of caf2/caf.py -/

structure SessionSt (V : Type) where
  world : World V
  pending : List FId
  waiting : List FId
  tasks : List (Str × FId)
  nextId : FId
deriving DecidableEq

/-- The callback id standing for the bound method Session._task_ready. -/
def taskReadyCb : CbId := 0

/-- The loop of Future.init over the dependencies of a new future: arguments
that are not yet done enter the pending set and record the new future as a
dependant (sets model: duplicates are added once). -/
def linkArgs (fid : FId) : World V → List FId → Option (World V × List FId)
  | w, [] => some (w, [])
  | w, a :: as => do
    let d ← List.lookup a w
    if d.result.isSome then
      linkArgs fid w as
    else
      let w1 := setFut w a
        { d with depants := if fid ∈ d.depants then d.depants else d.depants ++ [fid] }
      let (w2, rest) ← linkArgs fid w1 as
      some (w2, if a ∈ rest then rest else a :: rest)

/-- The generator of argument hash ids in create_task. -/
def lookupHashids : World V → List FId → Option (List Str)
  | _, [] => some []
  | w, a :: as => do
    let d ← List.lookup a w
    let rest ← lookupHashids w as
    some (d.hashid :: rest)

/-- Session.create_task for arguments that are already futures (the identity
branch of wrap_input): the hash string is json.dumps of the fullname and the
argument hash ids, the hash id is the digest of that string, the session
registry is consulted first, and a fresh Task future is registered otherwise.
Registration adds the task to the session pending set and installs the
_task_ready ready-callback, which fires immediately when the task has no
pending dependencies and then moves it straight to the waiting deque. -/
def create_task (dig : Str → Str) (s : SessionSt V) (fullname : Str)
    (args : List FId) : Option (FId × SessionSt V) := do
  let argHashes ← lookupHashids s.world args
  let hashid := dig (taskHashStr fullname argHashes)
  match List.lookup hashid s.tasks with
  | some t => some (t, s)
  | none =>
    let fid := s.nextId
    let (w1, pend) ← linkArgs fid s.world args
    let fut : FutData V :=
      { hashid := hashid, pending := pend, depants := [], result := none,
        readyCbs := if pend = [] then [] else [taskReadyCb], doneCbs := [] }
    let w2 := (fid, fut) :: w1
    if pend = [] then
      some (fid, { world := w2, pending := s.pending, waiting := s.waiting ++ [fid],
                   tasks := (hashid, fid) :: s.tasks, nextId := fid + 1 })
    else
      some (fid, { world := w2, pending := fid :: s.pending, waiting := s.waiting,
                   tasks := (hashid, fid) :: s.tasks, nextId := fid + 1 })

/-! ### Graph: the traversal loop traverse_async of caf2/graph.py

The loop state holds the visited set, the SetDeque of nodes to visit (queue
plus its mirror set), the deque of nodes scheduled for execution, the results
queue, and the in-flight counters.  The schedule hook is modelled by the list
of nodes it appends for a given node, and the hook invocations are recorded in
the ghost field schedCalled.  Executor completions arrive through a separate
environment transition (deliver), mirroring put_nowait on the asyncio queue;
iteration order of Python sets is unspecified and is modelled as first-seen
order.  The action priority is the default one: results, execute, traverse. -/

structure TravPar (N : Type) where
  edges : N → List N
  sched : N → List N
  sentinel : N → Bool
  depth : Bool

structure TravCfg (N : Type) where
  visited : List N
  toVisitQ : List N
  toVisitSet : List N
  toExecute : List N
  doneQ : List (List N)
  executing : Nat
  executed : Nat
  schedCalled : List N
deriving DecidableEq

variable {N : Type} [DecidableEq N]

/-- SetDeque.extend composed with the visited filter of extend_from: the new
items are deduplicated, filtered through the visited set, filtered against the
mirror set, and appended to both the queue and the mirror set. -/
def enqueue (c : TravCfg N) (src : List N) : TravCfg N :=
  let xs := ((src.filter fun x => ¬ x ∈ c.visited).dedup).filter fun x => ¬ x ∈ c.toVisitSet
  { c with toVisitQ := c.toVisitQ ++ xs, toVisitSet := c.toVisitSet ++ xs }

/-- SetDeque.pop (depth-first, right end) or SetDeque.popleft (left end). -/
def popSD (depth : Bool) (q : List N) : Option (N × List N) :=
  if depth then
    match q.getLast? with
    | none => none
    | some n => some (n, q.dropLast)
  else
    match q with
    | [] => none
    | n :: rest => some (n, rest)

inductive GAction
  | results
  | execute
  | traverseA
deriving DecidableEq

/-- First actionable action in the default priority order: a nonempty results
queue, then a nonempty execute deque, then a nonempty to-visit deque. -/
def chooseAction (c : TravCfg N) : Option GAction :=
  if c.doneQ ≠ [] then some .results
  else if c.toExecute ≠ [] then some .execute
  else if c.toVisitQ ≠ [] then some .traverseA
  else none

inductive TravStep (N : Type)
  | traverseStep (n : N)
  | executeStep (n : N)
  | resultsStep
deriving DecidableEq

inductive Outcome (N : Type)
  | terminated
  | blocked
  | next (s : TravStep N) (c : TravCfg N)
deriving DecidableEq

/-- One iteration of the while loop of traverse_async.  When no action is
actionable the loop breaks if nothing is in flight and otherwise blocks on the
results queue (resolved here by a later deliver).  A TRAVERSE step pops a
node, marks it visited, and unless the node is a sentinel invokes the schedule
hook and enqueues its outgoing edges filtered through visited.  An EXECUTE
step pops a scheduled node and increments the in-flight counter.  A RESULTS
step consumes one completion payload, merges it into the to-visit deque, and
decrements the in-flight counter. -/
def stepTrav (P : TravPar N) (c : TravCfg N) : Outcome N :=
  match chooseAction c with
  | none => if c.executing = 0 then .terminated else .blocked
  | some .traverseA =>
    match popSD P.depth c.toVisitQ with
    | none => .blocked
    | some (n, rest) =>
      let c1 := { c with toVisitQ := rest, toVisitSet := c.toVisitSet.erase n,
                         visited := c.visited ++ [n] }
      if P.sentinel n then .next (.traverseStep n) c1
      else
        let c2 := { c1 with toExecute := c1.toExecute ++ P.sched n,
                            schedCalled := c1.schedCalled ++ [n] }
        .next (.traverseStep n) (enqueue c2 (P.edges n))
  | some .execute =>
    match c.toExecute with
    | [] => .blocked
    | n :: rest =>
      .next (.executeStep n) { c with toExecute := rest, executing := c.executing + 1 }
  | some .results =>
    match c.doneQ with
    | [] => .blocked
    | payload :: rest =>
      .next .resultsStep
        (enqueue { c with doneQ := rest, executing := c.executing - 1,
                          executed := c.executed + 1 } payload)

/-- Environment transition: a completion callback puts a payload of freshly
generated nodes on the results queue. -/
def deliverPayload (c : TravCfg N) (payload : List N) : TravCfg N :=
  { c with doneQ := c.doneQ ++ [payload] }

/-- Initial configuration: the starting nodes are extended into the empty
to-visit deque. -/
def initCfg (start : List N) : TravCfg N :=
  enqueue ⟨[], [], [], [], [], 0, 0, []⟩ start

/-- Executions of the loop interleaved with environment deliveries, recording
the trace of yielded steps. -/
inductive Reaches (P : TravPar N) : TravCfg N → List (TravStep N) → TravCfg N → Prop
  | refl (c : TravCfg N) : Reaches P c [] c
  | ctrl {c c' c'' : TravCfg N} {s : TravStep N} {tr : List (TravStep N)} :
      stepTrav P c = .next s c' → Reaches P c' tr c'' → Reaches P c (s :: tr) c''
  | deliver {c c'' : TravCfg N} {tr : List (TravStep N)} (payload : List N) :
      Reaches P (deliverPayload c payload) tr c'' → Reaches P c tr c''

/-- Nodes of the TRAVERSE steps of a trace. -/
def traversedNodes : List (TravStep N) → List N
  | [] => []
  | .traverseStep n :: tr => n :: traversedNodes tr
  | .executeStep _ :: tr => traversedNodes tr
  | .resultsStep :: tr => traversedNodes tr

/-- Loop invariant of traverse_async: the visited list and the to-visit deque
have no duplicates, the to-visit deque is disjoint from visited, the mirror
set of the SetDeque holds exactly the deque elements, and the schedule hook
was never invoked on a sentinel. -/
def TravInv (P : TravPar N) (c : TravCfg N) : Prop :=
  c.visited.Nodup ∧ c.toVisitQ.Nodup ∧ c.toVisitSet.Nodup ∧
  (∀ n ∈ c.toVisitQ, n ∉ c.visited) ∧
  (∀ n, n ∈ c.toVisitSet ↔ n ∈ c.toVisitQ) ∧
  (∀ n ∈ c.schedCalled, P.sentinel n = false)

/-! ### CellarModel: the persistent store of caflib/Cellar.py

The sqlite index is modelled by association lists for the three tables; a task
row holds the parsed task object instead of its json text (json.loads and
json.dumps are inverse on the well-formed blobs the code reads and writes) and
the unused created column of tasks is dropped.  The objects directory is an
association list keyed by the pair of the two-character directory name and the
remaining file name; make_nonwritable is the writable flag.  Paths outside the
objects directory (sources of store_file, outputs of tasks) live in scratch.
Exceptions (FileNotFoundError, a failed assert, KeyError) are modelled by
returning none. -/

inductive State
  | CLEAN
  | DONE
  | DONEREMOTE
  | ERROR
  | RUNNING
  | INTERRUPTED
deriving DecidableEq

/-- Integer values of the State enum rows in the index. -/
def State.value : State → Int
  | .CLEAN => 0
  | .DONE => 1
  | .DONEREMOTE => 5
  | .ERROR => -1
  | .RUNNING => 2
  | .INTERRUPTED => 3

structure TaskObject where
  command : Str
  inputs : List (Str × Str)
  symlinks : List (Str × Str)
  children : List (Str × Str)
  childlinks : List (Str × Str × Str)
  outputs : Option (List (Str × Str))
deriving DecidableEq

structure FileEntry where
  content : Str
  writable : Bool
deriving DecidableEq

structure CellarSt where
  objectdb : List Str
  objects : List ((Str × Str) × FileEntry)
  scratch : List (Str × FileEntry)
  tasks : List (Str × TaskObject × State)
  builds : List (Nat × Nat)
  targets : List (Str × Nat × Str)
deriving DecidableEq

/-- Path of a blob inside the objects directory: first two hex characters,
then the remaining characters. -/
def objPath (h : Str) : Str × Str := (h.take 2, h.drop 2)

def taskObjOf (s : CellarSt) (h : Str) : Option TaskObject :=
  (List.lookup h s.tasks).map (·.1)

/-- Cellar.get_state: a missing row yields State.ERROR. -/
def get_state (s : CellarSt) (h : Str) : State :=
  match List.lookup h s.tasks with
  | none => State.ERROR
  | some row => row.2

inductive StoreSrc
  | text (t : Str)
  | file (p : Str)
deriving DecidableEq

/-- Cellar.store: hashes already known to the in-memory objectdb cache return
False immediately; otherwise the hash is cached, an existing target file also
returns False, and otherwise the blob is created (text written, or the source
file renamed into place) and made read-only. -/
def store (s : CellarSt) (h : Str) (src : StoreSrc) : Option (Bool × CellarSt) :=
  if h ∈ s.objectdb then some (false, s)
  else
    match List.lookup (objPath h) s.objects with
    | some _ => some (false, { s with objectdb := h :: s.objectdb })
    | none =>
      match src with
      | .text t =>
        some (true, { s with objectdb := h :: s.objectdb,
                             objects := (objPath h, ⟨t, false⟩) :: s.objects })
      | .file p =>
        match List.lookup p s.scratch with
        | none => none
        | some e =>
          some (true,
            { s with objectdb := h :: s.objectdb,
                     scratch := s.scratch.filter (fun q => ¬ q.1 = p),
                     objects := (objPath h, { e with writable := false }) :: s.objects })

/-- Cellar.get_file: the path is returned without a stat when the hash is in
the objectdb cache; otherwise a missing file raises FileNotFoundError. -/
def get_file (s : CellarSt) (h : Str) : Option (Str × Str) :=
  let path := objPath h
  if h ∈ s.objectdb then some path
  else if (List.lookup path s.objects).isSome then some path
  else none

/-- Cellar.update_outputs: asserts the row exists, replaces its outputs and
state in one update. -/
def updateOutputs (s : CellarSt) (h : Str) (st : State) (outs : List (Str × Str)) :
    Option CellarSt :=
  match List.lookup h s.tasks with
  | none => none
  | some row =>
    some { s with tasks := s.tasks.map fun r =>
      if r.1 = h then (h, { row.1 with outputs := some outs }, st) else r }

/-- The loop of Cellar.seal_task over output paths: each file is read, hashed
with the digest, stored (moved into the object store), and recorded in
hashed_outputs. -/
def storeOutputFiles (dig : Str → Str) :
    CellarSt → List (Str × Str) → Option (CellarSt × List (Str × Str))
  | s, [] => some (s, [])
  | s, (name, p) :: rest => do
    let e ← List.lookup p s.scratch
    let fh := dig e.content
    let (_, s1) ← store s fh (.file p)
    let (s2, hs) ← storeOutputFiles dig s1 rest
    some (s2, (name, fh) :: hs)

/-- Cellar.seal_task: when output paths are given their blobs are stored and
hashed first; the hashed outputs must be non-empty (assert), and the task row
is updated to the outputs and state DONE in one update. -/
def seal_task (dig : Str → Str) (s : CellarSt) (h : Str)
    (outputs hashedOutputs : List (Str × Str)) : Option CellarSt := do
  let (s1, houts) ←
    if outputs = [] then some (s, hashedOutputs) else storeOutputFiles dig s outputs
  if houts = [] then none
  else updateOutputs s1 h State.DONE houts

/-- Cellar.reset_task: state CLEAN and empty outputs. -/
def reset_task (s : CellarSt) (h : Str) : Option CellarSt :=
  updateOutputs s h State.CLEAN []

/-- Insert-or-ignore of one task row, state CLEAN. -/
def insertTask (tasks : List (Str × TaskObject × State)) (h : Str) (T : TaskObject) :
    List (Str × TaskObject × State) :=
  if (List.lookup h tasks).isSome then tasks else tasks ++ [(h, T, State.CLEAN)]

/-- Rowid that sqlite assigns to the new builds row. -/
def nextBuildId (builds : List (Nat × Nat)) : Nat :=
  (builds.map (·.1)).foldl max 0 + 1

def storeTexts : CellarSt → List (Str × Str) → Option CellarSt
  | s, [] => some s
  | s, (h, t) :: rest => do
    let (_, s1) ← store s h (.text t)
    storeTexts s1 rest

/-- Cellar.store_build (with the interactive confirmation answered yes):
insert-or-ignore the new task rows with state CLEAN, insert one build row,
insert its target rows, store the raw input blobs, and return the (hash,
state) pairs of the affected tasks. -/
def store_build (s : CellarSt) (newTasks : List (Str × TaskObject))
    (tgts : List (Str × Str)) (inputs : List (Str × Str)) (now : Nat) :
    Option (CellarSt × List (Str × State)) := do
  let tasks1 := newTasks.foldl (fun acc kv => insertTask acc kv.1 kv.2) s.tasks
  let bid := nextBuildId s.builds
  let s1 := { s with tasks := tasks1,
                     builds := s.builds ++ [(bid, now)],
                     targets := s.targets ++ tgts.map fun kv => (kv.2, bid, kv.1) }
  let s2 ← storeTexts s1 inputs
  some (s2, newTasks.filterMap fun kv =>
    (List.lookup kv.1 s2.tasks).map fun row => (kv.1, row.2))

/-- Id of the most recent build: greatest created timestamp (the first such
row on ties, determinizing the unspecified sqlite tie order). -/
def latestBuildId (builds : List (Nat × Nat)) : Option Nat :=
  match builds with
  | [] => none
  | b :: bs => some (bs.foldl (fun best q => if q.2 > best.2 then q else best) b).1

/-- Targets of the most recent build, as (taskhash, path) pairs, from
Cellar.get_build. -/
def buildTargets (s : CellarSt) : List (Str × Str) :=
  match latestBuildId s.builds with
  | none => []
  | some bid => (s.targets.filter fun t => t.2.1 = bid).map fun t => (t.1, t.2.2)

/-- Task objects of the distinct target hashes of the most recent build that
have a row in the tasks table (the sql join drops the others). -/
def buildTasks (s : CellarSt) : List (Str × TaskObject) :=
  ((buildTargets s).map (·.1)).dedup.filterMap fun h =>
    (taskObjOf s h).map fun T => (h, T)

def childPath (p name : Str) : Str := p ++ '/' :: name

/-- Inner loop of Cellar.get_tree over the children of a popped task: each
child is appended to the tree, fetched into the task dict when absent
(asserting it exists in the index), and pushed on the stack. -/
def walkStep (s : CellarSt) (path : Str) :
    List (Str × TaskObject) → List (Str × Str) → List (Str × Str) → List (Str × Str) →
    Option (List (Str × TaskObject) × List (Str × Str) × List (Str × Str))
  | tasks, tree, stack, [] => some (tasks, tree, stack)
  | tasks, tree, stack, (name, ch) :: chs =>
    let cp := childPath path name
    let tree1 := tree ++ [(cp, ch)]
    match List.lookup ch tasks with
    | some _ => walkStep s path tasks tree1 ((ch, cp) :: stack) chs
    | none =>
      match taskObjOf s ch with
      | none => none
      | some T => walkStep s path (tasks ++ [(ch, T)]) tree1 ((ch, cp) :: stack) chs

/-- Main loop of Cellar.get_tree: pop a (hash, path) pair, look its task up in
the dict (a missing key raises), and process its children.  The loop has no
visited set, so termination needs fuel; the unlimited run is recovered by any
sufficiently large fuel. -/
def walkTree (s : CellarSt) :
    Nat → List (Str × TaskObject) → List (Str × Str) → List (Str × Str) →
    Option (List (Str × TaskObject) × List (Str × Str))
  | 0, _, _, _ => none
  | _ + 1, tasks, tree, [] => some (tasks, tree)
  | fuel + 1, tasks, tree, (h, p) :: stack => do
    let T ← List.lookup h tasks
    let (tasks1, tree1, stack1) ← walkStep s p tasks tree stack T.children
    walkTree s fuel tasks1 tree1 stack1

/-- Python tuple comparison on (path, hash) pairs: first component by string
order, ties broken by the second. -/
def treeLT (a b : Str × Str) : Bool :=
  keyLT a.1 b.1 || (a.1 = b.1 && keyLT a.2 b.2)

/-- Insertion into an ascending list of (path, hash) pairs, placing the new
pair after every strictly smaller one. -/
def treeInsert (p : Str × Str) : List (Str × Str) → List (Str × Str)
  | [] => [p]
  | q :: qs => if treeLT q p then q :: treeInsert p qs else p :: q :: qs

/-- Ascending sort of the tree entries, modelling sorted(tree) over the list
of (virtual path, hash) tuples. -/
def treeSort : List (Str × Str) → List (Str × Str)
  | [] => []
  | p :: ps => treeInsert p (treeSort ps)

/-- One dict assignment d[k] = v: an existing key keeps its position and gets
the new value, a fresh key is appended. -/
def dictAssign (d : List (Str × Str)) (p : Str × Str) : List (Str × Str) :=
  if (List.lookup p.1 d).isSome then
    d.map fun q => if q.1 = p.1 then (q.1, p.2) else q
  else d ++ [p]

/-- dict(pairs): assign the pairs left to right, so a duplicate key collapses
to its last occurrence. -/
def dictOf (l : List (Str × Str)) : List (Str × Str) := l.foldl dictAssign []

/-- Cellar.get_tree with objects=True: the walk starts from the current build
targets, and the final Tree(sorted(tree)) builds a dict keyed by virtual path,
so duplicate paths collapse to the hash of their last sorted entry; the
objects attribute keeps the full task dict of the walk. -/
def get_tree (s : CellarSt) (fuel : Nat) :
    Option (List (Str × TaskObject) × List (Str × Str)) := do
  let (tasks, tree) ← walkTree s fuel (buildTasks s)
    ((buildTargets s).map fun t => (t.2, t.1)) (buildTargets s)
  some (tasks, dictOf (treeSort tree))

/-- Whether the tree produced by the get_tree walk has duplicate-free virtual
paths, so that the Tree dict collapses nothing. -/
def treePathsNodup (s : CellarSt) (fuel : Nat) : Bool :=
  match walkTree s fuel (buildTasks s)
      ((buildTargets s).map fun t => (t.2, t.1)) (buildTargets s) with
  | none => true
  | some (_, tree) => decide (tree.map (·.1)).Nodup

/-- Cellar.gc: walk the current build tree, retain the values of the collapsed
tree dict and every input and output file hash of the walked task objects,
unlink the object files whose reconstructed hash is not retained, delete the
target rows of older builds, and delete the task rows that are not retained.
The in-memory objectdb cache is not touched. -/
def retainOf (objs : List (Str × TaskObject)) (tree : List (Str × Str)) : List Str :=
  tree.map (·.2) ++
    objs.flatMap fun kv =>
      kv.2.inputs.map (·.2) ++ (kv.2.outputs.getD []).map (·.2)

def gcRun (s : CellarSt) (fuel : Nat) : Option CellarSt := do
  let (objs, tree) ← get_tree s fuel
  let retain := retainOf objs tree
  some { s with
    objects := s.objects.filter fun f => (f.1.1 ++ f.1.2) ∈ retain,
    targets := match latestBuildId s.builds with
      | none => s.targets
      | some bid => s.targets.filter fun t => t.2.1 = bid,
    tasks := s.tasks.filter fun row => row.1 ∈ retain }

/-- Tasks reachable from the targets of the most recent build by child edges,
the retained set of the gc claim. -/
inductive ReachTask (s : CellarSt) : Str → Prop
  | target (h p : Str) (hmem : (h, p) ∈ buildTargets s) : ReachTask s h
  | child (h c : Str) (T : TaskObject) (name : Str) (hr : ReachTask s h)
      (hT : taskObjOf s h = some T) (hc : (name, c) ∈ T.children) : ReachTask s c

/-- Reflexive-transitive closure of the child relation, with the step at the
head for convenient induction. -/
inductive ChildStar (s : CellarSt) : Str → Str → Prop
  | refl (h : Str) : ChildStar s h h
  | step (h c h2 : Str) (T : TaskObject) (name : Str)
      (hT : taskObjOf s h = some T) (hc : (name, c) ∈ T.children)
      (hs : ChildStar s c h2) : ChildStar s h h2

/-- The task dict of the walk agrees with the index. -/
def TasksConsistent (s : CellarSt) (tasks : List (Str × TaskObject)) : Prop :=
  ∀ p ∈ tasks, taskObjOf s p.1 = some p.2

/-- Cellar effect of one task under caf reset with the hard flag (caf/cli.py):
a DONE or CLEAN task gets Cellar.reset_task, which clears its stored outputs;
other states only touch the scheduler queue and leave the index row alone. -/
def resetHard (s : CellarSt) (h : Str) : Option CellarSt :=
  if get_state s h = State.DONE ∨ get_state s h = State.CLEAN then reset_task s h
  else some s

/-- The mutations of the task index performed by the Cellar itself. -/
inductive CellarOp
  | opStoreBuild (newTasks : List (Str × TaskObject)) (tgts : List (Str × Str))
      (inputs : List (Str × Str)) (now : Nat)
  | opStore (h : Str) (src : StoreSrc)
  | opSeal (h : Str) (outputs hashedOutputs : List (Str × Str))
  | opReset (h : Str)
  | opResetHard (h : Str)
  | opGc (fuel : Nat)

def cellarStep (dig : Str → Str) (s : CellarSt) : CellarOp → Option CellarSt
  | .opStoreBuild nt tg inp now => (store_build s nt tg inp now).map (·.1)
  | .opStore h src => (store s h src).map (·.2)
  | .opSeal h outs houts => seal_task dig s h outs houts
  | .opReset h => reset_task s h
  | .opResetHard h => resetHard s h
  | .opGc fuel => gcRun s fuel

/-- Per-row outputs invariant: state DONE has non-null outputs and any other
state has null or empty outputs. -/
def OutputsOk (T : TaskObject) (st : State) : Prop :=
  (st = State.DONE → ∃ outs, T.outputs = some outs) ∧
  (st ≠ State.DONE → T.outputs = none ∨ T.outputs = some [])

def OutputsInv (s : CellarSt) : Prop :=
  ∀ row ∈ s.tasks, OutputsOk row.2.1 row.2.2

/-- Tasks inserted by configure carry no outputs (TaskNode.seal emits no
outputs key); only opStoreBuild introduces rows not produced by seal or
reset. -/
def FreshTasksOk : CellarOp → Prop
  | .opStoreBuild nt _ _ _ => ∀ kv ∈ nt, kv.2.outputs = none
  | _ => True

/-! ### Concrete scenarios used by witnesses and counterexamples -/

/-- Cache invariant of the object store: every hash in the in-memory objectdb
cache has its blob file on disk. -/
def CacheConsistent (s : CellarSt) : Prop :=
  ∀ h ∈ s.objectdb, (List.lookup (objPath h) s.objects).isSome = true

def cexHash : Str := "da39a3ee5e6b4b0d3255bfef95601890afd80709".data

def cexStart : CellarSt := ⟨[], [], [], [], [], []⟩

/-- Store one text blob into an empty cellar, then run gc: no build exists, so
nothing is retained and the blob file is unlinked while the objectdb cache
still holds its hash. -/
def cexFinal : Option CellarSt :=
  ((store cexStart cexHash (.text "x".data)).map (·.2)).bind (gcRun · 1)

def cexBroken : CellarSt := ⟨[cexHash], [], [], [], [], []⟩

def witHash : Str := "356a192b7913b04c54574d18c28d46e6395428ab".data

def witStart : CellarSt :=
  ⟨[], [], [("tmp/out.dat".data, ⟨"payload".data, true⟩)], [], [], []⟩

def witAfter : CellarSt :=
  ⟨[witHash], [(objPath witHash, ⟨"payload".data, false⟩)], [], [], [], []⟩

def t9 : TaskObject := ⟨"cmd".data, [], [], [], [], none⟩

def h9 : Str := "ab".data

def s9 : CellarSt := ⟨[], [], [], [(h9, t9, State.CLEAN)], [], []⟩

def s9sealed : CellarSt :=
  ⟨[], [], [],
   [(h9, ⟨"cmd".data, [], [], [], [], some [("out".data, "ff".data)]⟩, State.DONE)],
   [], []⟩

/-- Two futures: future 1 is ready and undone with dependant 2 and one done
callback; future 2 waits on future 1 and has one ready callback. -/
def w5 : World Nat :=
  [(1, ⟨"aa".data, [], [2], none, [], [5]⟩),
   (2, ⟨"bb".data, [1], [], none, [7], []⟩)]

def w5After : World Nat :=
  [(1, ⟨"aa".data, [], [2], some 42, [], [5]⟩),
   (2, ⟨"bb".data, [], [], none, [7], []⟩)]

/-- One-node traversal scenario: no outgoing edges, the schedule hook appends
the node itself, nothing is a sentinel, breadth-first order. -/
def p7 : TravPar Nat := ⟨fun _ => [], fun n => [n], fun _ => false, false⟩

/-- Configuration after the single TRAVERSE step of p7 from start node 0. -/
def c7b : TravCfg Nat := ⟨[0], [], [], [0], [], 0, 0, [0]⟩

def s6 : SessionSt Nat := ⟨[], [], [], [], 0⟩

def fullname6 : Str := "m:f".data

/-- Session state after creating the zero-argument task of fullname6 in s6:
the task future is ready at once, so it sits in waiting rather than
pending. -/
def s6After : SessionSt Nat :=
  ⟨[(0, ⟨("[\"m:f\"]").data, [], [], none, [], []⟩)], [], [0],
   [(("[\"m:f\"]").data, 0)], 1⟩

def root8H : Str := "aaaa".data

def child8H : Str := "bbbb".data

def f8a : Str := "cccc".data

def f8b : Str := "dddd".data

def g8 : Str := "eeee".data

def fe8 : FileEntry := ⟨"x".data, false⟩

def t8root : TaskObject :=
  ⟨"cmd".data, [("in".data, f8a)], [], [("c".data, child8H)], [],
   some [("out".data, f8b)]⟩

def t8child : TaskObject := ⟨"cmd".data, [], [], [], [], none⟩

/-- One build whose root task has one child, one input blob and one output
blob; a fourth, unreferenced blob is garbage. -/
def s8 : CellarSt :=
  ⟨[], [(objPath f8a, fe8), (objPath f8b, fe8), (objPath g8, fe8)], [],
   [(root8H, t8root, State.DONE), (child8H, t8child, State.CLEAN)],
   [(1, 5)], [(root8H, 1, "root".data)]⟩

/-- The state after gc of s8: only the garbage blob is gone. -/
def s8After : CellarSt :=
  ⟨[], [(objPath f8a, fe8), (objPath f8b, fe8)], [],
   [(root8H, t8root, State.DONE), (child8H, t8child, State.CLEAN)],
   [(1, 5)], [(root8H, 1, "root".data)]⟩

def h1c : Str := "aaaa".data

def h2c : Str := "bbbb".data

def h3c : Str := "cccc".data

def t8c1 : TaskObject := ⟨"cmd".data, [], [], [("c".data, h3c)], [], none⟩

def t8c2 : TaskObject := ⟨"cmd".data, [], [], [], [], none⟩

def t8c3 : TaskObject := ⟨"cmd".data, [], [], [], [], none⟩

/-- One build with two targets at nested virtual paths: the root target at
path root has a child named c, so the walk records both the target h2c and
the child h3c under the same virtual path root/c, and the Tree dict keeps
only the sorted-last of the two hashes. -/
def s8c : CellarSt :=
  ⟨[], [], [],
   [(h1c, t8c1, State.CLEAN), (h2c, t8c2, State.CLEAN), (h3c, t8c3, State.CLEAN)],
   [(1, 5)], [(h1c, 1, "root".data), (h2c, 1, ("root/c").data)]⟩

/-- The state after gc of s8c: the row of the collapsed-away target h2c is
deleted even though h2c is a target of the current build. -/
def s8cAfter : CellarSt :=
  ⟨[], [], [],
   [(h1c, t8c1, State.CLEAN), (h3c, t8c3, State.CLEAN)],
   [(1, 5)], [(h1c, 1, "root".data), (h2c, 1, ("root/c").data)]⟩

/-! ### Theorems -/

theorem keyLT_trans (a : Str) : ∀ b c, keyLT a b = true → keyLT b c = true →
    keyLT a c = true := by
  induction a with
  | nil =>
    intro b c h1 h2
    cases b with
    | nil => simp [keyLT] at h1
    | cons y bs =>
      cases c with
      | nil => simp [keyLT] at h2
      | cons z cs => simp [keyLT]
  | cons x as ih =>
    intro b c h1 h2
    cases b with
    | nil => simp [keyLT] at h1
    | cons y bs =>
      cases c with
      | nil => simp [keyLT] at h2
      | cons z cs =>
        simp only [keyLT] at h1 h2 ⊢
        by_cases hxy : x = y
        · subst hxy
          rw [if_pos rfl] at h1
          by_cases hyz : x = z
          · subst hyz
            rw [if_pos rfl] at h2 ⊢
            exact ih bs cs h1 h2
          · rw [if_neg hyz] at h2
            rw [if_neg hyz]
            exact h2
        · rw [if_neg hxy] at h1
          have hxy2 : x < y := of_decide_eq_true h1
          by_cases hyz : y = z
          · subst hyz
            rw [if_neg (ne_of_lt hxy2)]
            exact decide_eq_true hxy2
          · rw [if_neg hyz] at h2
            have hyz2 : y < z := of_decide_eq_true h2
            have hxz : x < z := lt_trans hxy2 hyz2
            rw [if_neg (ne_of_lt hxz)]
            exact decide_eq_true hxz

theorem keyLT_asymm (a : Str) : ∀ b, keyLT a b = true → keyLT b a = false := by
  induction a with
  | nil =>
    intro b h
    cases b with
    | nil => simp [keyLT] at h
    | cons y bs => simp [keyLT]
  | cons x as ih =>
    intro b h
    cases b with
    | nil => simp [keyLT] at h
    | cons y bs =>
      simp only [keyLT] at h ⊢
      by_cases hxy : x = y
      · subst hxy
        rw [if_pos rfl] at h ⊢
        exact ih bs h
      · rw [if_neg hxy] at h
        have h2 : x < y := of_decide_eq_true h
        rw [if_neg (Ne.symm hxy)]
        simp [not_lt_of_gt h2]

theorem keyLT_connex (a : Str) : ∀ b, keyLT a b = false → keyLT b a = false →
    a = b := by
  induction a with
  | nil =>
    intro b h1 _
    cases b with
    | nil => rfl
    | cons y bs => simp [keyLT] at h1
  | cons x as ih =>
    intro b h1 h2
    cases b with
    | nil => simp [keyLT] at h2
    | cons y bs =>
      simp only [keyLT] at h1 h2
      by_cases hxy : x = y
      · subst hxy
        rw [if_pos rfl] at h1 h2
        rw [ih bs h1 h2]
      · rw [if_neg hxy] at h1
        rw [if_neg (Ne.symm hxy)] at h2
        have hn1 : ¬ x < y := of_decide_eq_false h1
        have hn2 : ¬ y < x := of_decide_eq_false h2
        exact absurd (lt_or_gt_of_ne hxy).elim (by
          intro hor
          exact (hor (fun h => hn1 h) (fun h => hn2 h)).elim)

theorem mem_insertPair {α : Type} (x p : Str × α) (l : List (Str × α)) :
    x ∈ insertPair p l ↔ x = p ∨ x ∈ l := by
  induction l with
  | nil => simp [insertPair]
  | cons q qs ih =>
    simp only [insertPair]
    split
    · simp only [List.mem_cons, ih]
      tauto
    · simp only [List.mem_cons]

theorem pairwise_insertPair {α : Type} (p : Str × α) (l : List (Str × α))
    (hl : List.Pairwise (fun u v => keyLT v.1 u.1 = false) l) :
    List.Pairwise (fun u v => keyLT v.1 u.1 = false) (insertPair p l) := by
  induction l with
  | nil => simp [insertPair]
  | cons q qs ih =>
    rw [List.pairwise_cons] at hl
    obtain ⟨hq, hqs⟩ := hl
    simp only [insertPair]
    split
    · rename_i hlt
      rw [List.pairwise_cons]
      refine ⟨?_, ih hqs⟩
      intro x hx
      rcases (mem_insertPair x p qs).1 hx with hxp | hxqs
      · subst hxp
        exact keyLT_asymm _ _ hlt
      · exact hq x hxqs
    · rename_i hnlt
      rw [List.pairwise_cons]
      refine ⟨?_, List.pairwise_cons.2 ⟨hq, hqs⟩⟩
      intro x hx
      rcases List.mem_cons.1 hx with hxq | hxqs
      · subst hxq
        exact eq_false_of_ne_true hnlt
      · have hqx : keyLT x.1 q.1 = false := hq x hxqs
        have hqp : keyLT q.1 p.1 = false := eq_false_of_ne_true hnlt
        cases hb : keyLT q.1 x.1 with
        | true =>
          cases hc : keyLT x.1 p.1 with
          | true =>
            have := keyLT_trans q.1 x.1 p.1 hb hc
            rw [this] at hqp
            cases hqp
          | false => rfl
        | false =>
          have : x.1 = q.1 := keyLT_connex x.1 q.1 hqx hb
          rw [this]
          exact hqp

theorem sortPairs_sorted {α : Type} (kvs : List (Str × α)) :
    List.Pairwise (fun u v => keyLT v.1 u.1 = false) (sortPairs kvs) := by
  induction kvs with
  | nil => simp [sortPairs]
  | cons p ps ih => exact pairwise_insertPair p _ ih

/-- Claim C2 as stated is false: the program hashes json.dumps output produced
with the default separators, which put a space after each comma and colon, so
the hashed strings are not free of whitespace between tokens.  The hash string
of a one-argument task contains a space character. -/
theorem canonical_json_whitespace_cex :
    ' ' ∈ taskHashStr ("m:f".data) ["aaaa".data] ∧
    taskHashStr ("m:f".data) ["aaaa".data] = ("[\"m:f\", \"aaaa\"]").data := by
  exact ⟨by decide, by decide⟩

/-- Claim C2 amended: every JSON string hashed for a task identity has its
object keys sorted lexicographically, but the tokens are separated by the
default comma-space and colon-space separators, so the strings contain one
space after each comma and colon rather than no whitespace.  The first part
states key sortedness for every serialized object; the concrete parts exhibit
the exact create_task hash string and TaskNode.seal blob. -/
theorem canonical_json_amended :
    (∀ (α : Type) (kvs : List (Str × α)),
      List.Pairwise (fun u v => keyLT v.1 u.1 = false) (sortPairs kvs)) ∧
    taskHashStr ("m:f".data) ["aaaa".data] = ("[\"m:f\", \"aaaa\"]").data ∧
    sealBlob id ("cmd".data) [("in".data, "c".data)] [] [("s".data, "e3".data)]
        [("l".data, "s".data, "o".data)] =
      ("\x7b\"childlinks\": \x7b\"l\": [\"s\", \"o\"]\x7d, \"children\": \x7b\"s\": \"e3\"\x7d, \"command\": \"cmd\", \"inputs\": \x7b\"in\": \"c\"\x7d, \"symlinks\": \x7b\x7d\x7d").data := by
  exact ⟨fun _ kvs => sortPairs_sorted kvs, by decide, by decide⟩

/-- Claim C10: a hash with no row in the tasks table gets State.ERROR from
Cellar.get_state, the same value a failed task reports, so an unknown task is
indistinguishable from a failed one at this interface. -/
theorem get_state_missing_is_error (s : CellarSt) (h : Str)
    (hnone : List.lookup h s.tasks = none) :
    get_state s h = State.ERROR ∧
    ∀ (s2 : CellarSt) (h2 : Str) (T2 : TaskObject),
      List.lookup h2 s2.tasks = some (T2, State.ERROR) →
      get_state s2 h2 = get_state s h := by
  constructor
  · simp [get_state, hnone]
  · intro s2 h2 T2 hrow
    simp [get_state, hnone, hrow]

theorem get_state_missing_is_error_witness :
    List.lookup ("ab".data) cexStart.tasks = none ∧
    get_state cexStart ("ab".data) = State.ERROR :=
  ⟨by decide, (get_state_missing_is_error cexStart ("ab".data) (by decide)).1⟩

/-- Claim C3: Cellar.store is idempotent: once a call for a hash has returned,
a later call for the same hash is a no-op on the state and returns False; a
first writing call creates the blob file at objects slash first-two slash
rest, makes it read-only, and a provided source path is renamed away from its
origin rather than copied. -/
theorem store_idempotent_and_write :
    (∀ (s s1 : CellarSt) (h : Str) (a a2 : StoreSrc) (r : Bool),
      store s h a = some (r, s1) → store s1 h a2 = some (false, s1)) ∧
    (∀ (s : CellarSt) (h : Str) (t : Str),
      h ∉ s.objectdb → List.lookup (objPath h) s.objects = none →
      store s h (.text t) = some (true,
        { s with objectdb := h :: s.objectdb,
                 objects := (objPath h, ⟨t, false⟩) :: s.objects })) ∧
    (∀ (s : CellarSt) (h : Str) (p : Str) (e : FileEntry),
      h ∉ s.objectdb → List.lookup (objPath h) s.objects = none →
      List.lookup p s.scratch = some e →
      store s h (.file p) = some (true,
        { s with objectdb := h :: s.objectdb,
                 scratch := s.scratch.filter (fun q => ¬ q.1 = p),
                 objects := (objPath h, { e with writable := false }) :: s.objects })) := by
  refine ⟨?_, ?_, ?_⟩
  · intro s s1 h a a2 r hfirst
    have hmem : h ∈ s1.objectdb := by
      unfold store at hfirst
      split at hfirst
      · simp only [Option.some.injEq, Prod.mk.injEq] at hfirst
        obtain ⟨-, rfl⟩ := hfirst
        assumption
      · split at hfirst
        · simp only [Option.some.injEq, Prod.mk.injEq] at hfirst
          obtain ⟨-, rfl⟩ := hfirst
          exact List.mem_cons_self _ _
        · split at hfirst
          · simp only [Option.some.injEq, Prod.mk.injEq] at hfirst
            obtain ⟨-, rfl⟩ := hfirst
            exact List.mem_cons_self _ _
          · split at hfirst
            · cases hfirst
            · simp only [Option.some.injEq, Prod.mk.injEq] at hfirst
              obtain ⟨-, rfl⟩ := hfirst
              exact List.mem_cons_self _ _
    unfold store
    simp [hmem]
  · intro s h t hdb hobj
    unfold store
    simp [hdb, hobj]
  · intro s h p e hdb hobj hsrc
    unfold store
    simp [hdb, hobj, hsrc]

theorem store_idempotent_and_write_witness :
    store witStart witHash (.file "tmp/out.dat".data) = some (true, witAfter) ∧
    store witAfter witHash (.text "other".data) = some (false, witAfter) := by
  have hw : store witStart witHash (.file "tmp/out.dat".data) = some (true, witAfter) := by
    have h := store_idempotent_and_write.2.2 witStart witHash ("tmp/out.dat".data)
      ⟨"payload".data, true⟩ (by decide) (by decide) (by decide)
    rw [h]
    decide
  exact ⟨hw, store_idempotent_and_write.1 _ _ _ _ _ _ hw⟩

/-- Claim C4 as stated is false: get_file trusts the objectdb cache, and gc
unlinks files without clearing that cache, so after store and gc of an
unreferenced blob, get_file returns the path of a file that no longer
exists. -/
theorem get_file_stale_cache_cex :
    cexFinal = some cexBroken ∧
    get_file cexBroken cexHash = some (objPath cexHash) ∧
    List.lookup (objPath cexHash) cexBroken.objects = none := by
  refine ⟨by decide, by decide, by decide⟩

/-- Claim C4 amended: provided every hash in the objectdb cache has its blob
on disk (an invariant that store establishes but gc breaks), get_file either
returns the objects-directory path of an existing blob file or raises
FileNotFoundError. -/
theorem get_file_exists_or_raises (s : CellarSt) (hcc : CacheConsistent s)
    (h : Str) (p : Str × Str) (hget : get_file s h = some p) :
    p = objPath h ∧ (List.lookup p s.objects).isSome = true := by
  unfold get_file at hget
  by_cases hdb : h ∈ s.objectdb
  · simp only [hdb, if_true] at hget
    cases hget
    exact ⟨rfl, hcc h hdb⟩
  · simp only [hdb, if_false] at hget
    by_cases hob : (List.lookup (objPath h) s.objects).isSome = true
    · simp only [hob, if_true] at hget
      cases hget
      exact ⟨rfl, hob⟩
    · simp only [hob, if_false] at hget
      cases hget

theorem get_file_exists_or_raises_witness :
    get_file witAfter witHash = some (objPath witHash) ∧
    (List.lookup (objPath witHash) witAfter.objects).isSome = true := by
  have hcc : CacheConsistent witAfter := by
    intro h hmem
    have : h = witHash := by
      simpa [witAfter] using hmem
    subst this
    decide
  have h := get_file_exists_or_raises _ hcc witHash (objPath witHash) (by decide)
  exact ⟨by decide, h.2⟩

theorem lookup_isSome_cons {β : Type} (q : Str × Str) (kv : (Str × Str) × β)
    (l : List ((Str × Str) × β)) (h : (List.lookup q l).isSome = true) :
    (List.lookup q (kv :: l)).isSome = true := by
  obtain ⟨k, v⟩ := kv
  rw [List.lookup_cons]
  cases hb : q == k
  · exact h
  · rfl

/-- Everything store does besides the object store: the index tables are
untouched, disk files are only added, and under the cache invariant the
invariant is preserved and the requested blob exists afterwards. -/
theorem store_spec (s : CellarSt) (h : Str) (a : StoreSrc) (r : Bool)
    (s1 : CellarSt) (hst : store s h a = some (r, s1)) :
    s1.tasks = s.tasks ∧ s1.builds = s.builds ∧ s1.targets = s.targets ∧
    (∀ q, (List.lookup q s.objects).isSome = true →
      (List.lookup q s1.objects).isSome = true) ∧
    (CacheConsistent s → CacheConsistent s1 ∧
      (List.lookup (objPath h) s1.objects).isSome = true) := by
  unfold store at hst
  split at hst
  · rename_i hdb
    simp only [Option.some.injEq, Prod.mk.injEq] at hst
    obtain ⟨-, rfl⟩ := hst
    exact ⟨rfl, rfl, rfl, fun q hq => hq, fun hcc => ⟨hcc, hcc h hdb⟩⟩
  · rename_i hdb
    split at hst
    · rename_i e hobj
      simp only [Option.some.injEq, Prod.mk.injEq] at hst
      obtain ⟨-, rfl⟩ := hst
      refine ⟨rfl, rfl, rfl, fun q hq => hq, fun hcc => ⟨?_, by simp [hobj]⟩⟩
      intro h2 hmem
      rcases List.mem_cons.1 hmem with rfl | hmem2
      · simp [hobj]
      · exact hcc h2 hmem2
    · rename_i hobj
      split at hst
      · rename_i t
        simp only [Option.some.injEq, Prod.mk.injEq] at hst
        obtain ⟨-, rfl⟩ := hst
        refine ⟨rfl, rfl, rfl, fun q hq => lookup_isSome_cons q _ _ hq,
          fun hcc => ⟨?_, by simp [List.lookup]⟩⟩
        intro h2 hmem
        rcases List.mem_cons.1 hmem with rfl | hmem2
        · simp [List.lookup]
        · exact lookup_isSome_cons _ _ _ (hcc h2 hmem2)
      · rename_i p
        split at hst
        · cases hst
        · rename_i e hsrc
          simp only [Option.some.injEq, Prod.mk.injEq] at hst
          obtain ⟨-, rfl⟩ := hst
          refine ⟨rfl, rfl, rfl, fun q hq => lookup_isSome_cons q _ _ hq,
            fun hcc => ⟨?_, by simp [List.lookup]⟩⟩
          intro h2 hmem
          rcases List.mem_cons.1 hmem with rfl | hmem2
          · simp [List.lookup]
          · exact lookup_isSome_cons _ _ _ (hcc h2 hmem2)

theorem storeTexts_tasks (inputs : List (Str × Str)) :
    ∀ (s s1 : CellarSt), storeTexts s inputs = some s1 →
    s1.tasks = s.tasks := by
  induction inputs with
  | nil =>
    intro s s1 hst
    cases hst
    rfl
  | cons kv rest ih =>
    intro s s1 hst
    obtain ⟨k, v⟩ := kv
    simp only [storeTexts, Option.bind_eq_bind, Option.bind_eq_some] at hst
    obtain ⟨⟨r, sA⟩, hsA, hrest⟩ := hst
    obtain ⟨h1, -, -, -, -⟩ := store_spec s k (.text v) r sA hsA
    exact (ih sA s1 hrest).trans h1

/-- The storeOutputFiles loop of seal_task: the index tables are untouched,
disk files only grow, and under the cache invariant every produced output hash
has its blob on disk afterwards. -/
theorem storeOutputFiles_spec (dig : Str → Str) (outs : List (Str × Str)) :
    ∀ (s s1 : CellarSt) (houts : List (Str × Str)), CacheConsistent s →
    storeOutputFiles dig s outs = some (s1, houts) →
    CacheConsistent s1 ∧ s1.tasks = s.tasks ∧ houts.length = outs.length ∧
    (∀ q, (List.lookup q s.objects).isSome = true →
      (List.lookup q s1.objects).isSome = true) ∧
    (∀ nf ∈ houts, (List.lookup (objPath nf.2) s1.objects).isSome = true) := by
  induction outs with
  | nil =>
    intro s s1 houts hcc hst
    simp only [storeOutputFiles, Option.some.injEq, Prod.mk.injEq] at hst
    obtain ⟨rfl, rfl⟩ := hst
    exact ⟨hcc, rfl, rfl, fun q hq => hq, fun nf hmem => absurd hmem (List.not_mem_nil nf)⟩
  | cons np rest ih =>
    intro s s1 houts hcc hst
    obtain ⟨name, p⟩ := np
    simp only [storeOutputFiles, Option.bind_eq_bind, Option.bind_eq_some,
      Option.some.injEq] at hst
    obtain ⟨e, he, ⟨r, sA⟩, hsA, ⟨sB, hsB⟩, hrest, hfin⟩ := hst
    obtain ⟨htA, -, -, hmonoA, hccA⟩ := store_spec s (dig e.content) (.file p) r sA hsA
    obtain ⟨hccA2, hfileA⟩ := hccA hcc
    obtain ⟨hccB, htB, hlen, hmonoB, hfiles⟩ := ih sA sB hsB hccA2 hrest
    obtain ⟨rfl, rfl⟩ := hfin
    refine ⟨hccB, htB.trans htA, by simp [hlen], fun q hq => hmonoB q (hmonoA q hq), ?_⟩
    intro nf hmem
    rcases List.mem_cons.1 hmem with rfl | hmem2
    · exact hmonoB _ hfileA
    · exact hfiles nf hmem2

theorem lookup_update_self {κ β : Type} [DecidableEq κ] [BEq κ] [LawfulBEq κ]
    (l : List (κ × β)) (h : κ) (v : β) (hl : (List.lookup h l).isSome = true) :
    List.lookup h (l.map fun r => if r.1 = h then (h, v) else r) = some v := by
  induction l with
  | nil => simp [List.lookup] at hl
  | cons r rs ih =>
    obtain ⟨rk, rv⟩ := r
    simp only [List.map_cons]
    by_cases hr : rk = h
    · subst hr
      rw [if_pos rfl, List.lookup_cons]
      rw [show (rk == rk) = true from beq_self_eq_true rk]
    · have hbeq : (h == rk) = false := beq_eq_false_iff_ne.mpr (Ne.symm hr)
      rw [List.lookup_cons, hbeq] at hl
      rw [if_neg hr, List.lookup_cons, hbeq]
      exact ih hl

theorem lookup_update_ne {κ β : Type} [DecidableEq κ] [BEq κ] [LawfulBEq κ]
    (l : List (κ × β)) (h h2 : κ) (v : β) (hne : h2 ≠ h) :
    List.lookup h2 (l.map fun r => if r.1 = h then (h, v) else r) =
      List.lookup h2 l := by
  induction l with
  | nil => rfl
  | cons r rs ih =>
    obtain ⟨rk, rv⟩ := r
    simp only [List.map_cons]
    by_cases hr : rk = h
    · subst hr
      have hbeq : (h2 == rk) = false := beq_eq_false_iff_ne.mpr hne
      rw [if_pos rfl, List.lookup_cons, List.lookup_cons, hbeq]
      exact ih
    · rw [if_neg hr, List.lookup_cons, List.lookup_cons]
      cases hb : h2 == rk
      · exact ih
      · rfl

theorem updateOutputs_spec (s : CellarSt) (h : Str) (T : TaskObject) (st0 st : State)
    (outs : List (Str × Str)) (hrow : List.lookup h s.tasks = some (T, st0)) :
    updateOutputs s h st outs = some
      { s with tasks := s.tasks.map fun r =>
          if r.1 = h then (h, { T with outputs := some outs }, st) else r } := by
  unfold updateOutputs
  rw [hrow]

theorem outputsOk_of_mem_update (s : CellarSt) (h : Str) (T : TaskObject)
    (st : State) (outs : List (Str × Str)) (hinv : OutputsInv s)
    (hok : OutputsOk { T with outputs := some outs } st) :
    ∀ row ∈ s.tasks.map fun r =>
      if r.1 = h then (h, { T with outputs := some outs }, st) else r,
      OutputsOk row.2.1 row.2.2 := by
  intro row hmem
  obtain ⟨r0, hr0, hrow⟩ := List.mem_map.1 hmem
  by_cases hr : r0.1 = h
  · rw [if_pos hr] at hrow
    exact hrow ▸ hok
  · rw [if_neg hr] at hrow
    exact hrow ▸ hinv r0 hr0

theorem tasksOk_insertTask (l : List (Str × TaskObject × State)) (h : Str)
    (T : TaskObject) (hl : ∀ row ∈ l, OutputsOk row.2.1 row.2.2)
    (hT : T.outputs = none) :
    ∀ row ∈ insertTask l h T, OutputsOk row.2.1 row.2.2 := by
  intro row hmem
  unfold insertTask at hmem
  split at hmem
  · exact hl row hmem
  · rcases List.mem_append.1 hmem with hmem2 | hmem2
    · exact hl row hmem2
    · have : row = (h, T, State.CLEAN) := by simpa using hmem2
      subst this
      exact ⟨fun hd => (nomatch hd), fun _ => Or.inl hT⟩

theorem tasksOk_insertAll (nt : List (Str × TaskObject)) :
    ∀ (l : List (Str × TaskObject × State)),
    (∀ row ∈ l, OutputsOk row.2.1 row.2.2) →
    (∀ kv ∈ nt, kv.2.outputs = none) →
    ∀ row ∈ nt.foldl (fun acc kv => insertTask acc kv.1 kv.2) l,
      OutputsOk row.2.1 row.2.2 := by
  induction nt with
  | nil => intro l hl _ row hmem; exact hl row hmem
  | cons kv rest ih =>
    intro l hl hfresh row hmem
    simp only [List.foldl_cons] at hmem
    exact ih (insertTask l kv.1 kv.2)
      (tasksOk_insertTask l kv.1 kv.2 hl (hfresh kv (List.mem_cons_self _ _)))
      (fun kv2 h2 => hfresh kv2 (List.mem_cons_of_mem _ h2)) row hmem

theorem storeOutputFiles_tasks (dig : Str → Str) (outs : List (Str × Str)) :
    ∀ (s s1 : CellarSt) (houts : List (Str × Str)),
    storeOutputFiles dig s outs = some (s1, houts) →
    s1.tasks = s.tasks ∧ houts.length = outs.length := by
  induction outs with
  | nil =>
    intro s s1 houts hst
    simp only [storeOutputFiles, Option.some.injEq, Prod.mk.injEq] at hst
    obtain ⟨rfl, rfl⟩ := hst
    exact ⟨rfl, rfl⟩
  | cons np rest ih =>
    intro s s1 houts hst
    obtain ⟨name, p⟩ := np
    simp only [storeOutputFiles, Option.bind_eq_bind, Option.bind_eq_some,
      Option.some.injEq] at hst
    obtain ⟨e, he, ⟨r, sA⟩, hsA, ⟨sB, hsB⟩, hrest, hfin⟩ := hst
    obtain ⟨htA, -, -, -, -⟩ := store_spec s (dig e.content) (.file p) r sA hsA
    obtain ⟨htB, hlen⟩ := ih sA sB hsB hrest
    obtain ⟨rfl, rfl⟩ := hfin
    exact ⟨htB.trans htA, by simp [hlen]⟩

theorem updateOutputs_eq_some (s : CellarSt) (h : Str) (st : State)
    (outs : List (Str × Str)) (s' : CellarSt)
    (hupd : updateOutputs s h st outs = some s') :
    ∃ row0, List.lookup h s.tasks = some row0 ∧
      s' = { s with tasks := s.tasks.map fun r =>
        if r.1 = h then (h, { row0.1 with outputs := some outs }, st) else r } := by
  unfold updateOutputs at hupd
  cases hrow : List.lookup h s.tasks with
  | none => rw [hrow] at hupd; cases hupd
  | some row0 =>
    rw [hrow] at hupd
    simp only [Option.some.injEq] at hupd
    exact ⟨row0, rfl, hupd.symm⟩

/-- Claim C9: the mutations the Cellar performs on the task index preserve the
outputs invariant (a DONE row has non-null outputs, any other state has null
or empty outputs), given that newly inserted rows carry no outputs, as the
blobs emitted by TaskNode.seal do; seal_task with hashed outputs rewrites
exactly the sealed row to the given outputs and state DONE in one update;
seal_task with output paths stores each output blob on disk and then performs
the same row update; reset_task rewrites exactly its row to state CLEAN with
emptied outputs; and the hard variant of the reset command applies reset_task
to DONE (and CLEAN) tasks, clearing their stored outputs. -/
theorem outputs_invariant_seal_reset (dig : Str → Str) :
    (∀ (s s' : CellarSt) (op : CellarOp), OutputsInv s → FreshTasksOk op →
      cellarStep dig s op = some s' → OutputsInv s') ∧
    (∀ (s : CellarSt) (h : Str) (T : TaskObject) (st : State)
      (houts : List (Str × Str)), List.lookup h s.tasks = some (T, st) →
      houts ≠ [] →
      seal_task dig s h [] houts = some
        { s with tasks := s.tasks.map fun r =>
            if r.1 = h then (h, { T with outputs := some houts }, State.DONE)
            else r }) ∧
    (∀ (s s' : CellarSt) (h : Str) (outs : List (Str × Str)),
      CacheConsistent s → outs ≠ [] → seal_task dig s h outs [] = some s' →
      ∃ houts T st, houts ≠ [] ∧ houts.length = outs.length ∧
        List.lookup h s.tasks = some (T, st) ∧
        List.lookup h s'.tasks =
          some ({ T with outputs := some houts }, State.DONE) ∧
        (∀ nf ∈ houts, (List.lookup (objPath nf.2) s'.objects).isSome = true) ∧
        (∀ h2, h2 ≠ h → List.lookup h2 s'.tasks = List.lookup h2 s.tasks)) ∧
    (∀ (s : CellarSt) (h : Str) (T : TaskObject) (st : State),
      List.lookup h s.tasks = some (T, st) →
      reset_task s h = some
        { s with tasks := s.tasks.map fun r =>
            if r.1 = h then (h, { T with outputs := some [] }, State.CLEAN)
            else r }) ∧
    (∀ (s : CellarSt) (h : Str),
      get_state s h = State.DONE ∨ get_state s h = State.CLEAN →
      resetHard s h = reset_task s h) := by
  have hsealHashed : ∀ (s : CellarSt) (h : Str) (T : TaskObject) (st : State)
      (houts : List (Str × Str)), List.lookup h s.tasks = some (T, st) →
      houts ≠ [] →
      seal_task dig s h [] houts = some
        { s with tasks := s.tasks.map fun r =>
            if r.1 = h then (h, { T with outputs := some houts }, State.DONE)
            else r } := by
    intro s h T st houts hrow hne
    unfold seal_task
    rw [if_pos rfl]
    show (if houts = [] then none else updateOutputs s h State.DONE houts) = _
    rw [if_neg hne]
    exact updateOutputs_spec s h T st State.DONE houts hrow
  have hreset : ∀ (s : CellarSt) (h : Str) (T : TaskObject) (st : State),
      List.lookup h s.tasks = some (T, st) →
      reset_task s h = some
        { s with tasks := s.tasks.map fun r =>
            if r.1 = h then (h, { T with outputs := some [] }, State.CLEAN)
            else r } := by
    intro s h T st hrow
    exact updateOutputs_spec s h T st State.CLEAN [] hrow
  have hinvUpd : ∀ (s s' : CellarSt) (h : Str) (st : State)
      (outs : List (Str × Str)), OutputsInv s →
      (∀ T : TaskObject, OutputsOk { T with outputs := some outs } st) →
      updateOutputs s h st outs = some s' → OutputsInv s' := by
    intro s s' h st outs hinv hok hupd
    obtain ⟨row0, hrow, rfl⟩ := updateOutputs_eq_some s h st outs s' hupd
    exact outputsOk_of_mem_update s h row0.1 st outs hinv (hok row0.1)
  have hokDone : ∀ (outs : List (Str × Str)) (T : TaskObject),
      OutputsOk { T with outputs := some outs } State.DONE :=
    fun outs T => ⟨fun _ => ⟨outs, rfl⟩, fun hne => absurd rfl hne⟩
  have hokClean : ∀ (T : TaskObject),
      OutputsOk { T with outputs := some [] } State.CLEAN :=
    fun T => ⟨fun hd => (nomatch hd), fun _ => Or.inr rfl⟩
  have hinvSeal : ∀ (s s' : CellarSt) (h : Str)
      (outs houts : List (Str × Str)), OutputsInv s →
      seal_task dig s h outs houts = some s' → OutputsInv s' := by
    intro s s' h outs houts hinv hst
    unfold seal_task at hst
    by_cases ho : outs = []
    · rw [if_pos ho] at hst
      replace hst : (if houts = [] then none
          else updateOutputs s h State.DONE houts) = some s' := hst
      split at hst
      · cases hst
      · exact hinvUpd s s' h State.DONE houts hinv (hokDone houts) hst
    · rw [if_neg ho] at hst
      simp only [Option.bind_eq_bind, Option.bind_eq_some] at hst
      obtain ⟨⟨s1, houts1⟩, hsof, hupd⟩ := hst
      obtain ⟨htasks, -⟩ := storeOutputFiles_tasks dig outs s s1 houts1 hsof
      have hinv1 : OutputsInv s1 := by
        intro row hmem
        exact hinv row (htasks ▸ hmem)
      replace hupd : (if houts1 = [] then none
          else updateOutputs s1 h State.DONE houts1) = some s' := hupd
      split at hupd
      · cases hupd
      · exact hinvUpd s1 s' h State.DONE houts1 hinv1 (hokDone houts1) hupd
  refine ⟨?_, hsealHashed, ?_, hreset, ?_⟩
  · intro s s' op hinv hfresh hstep
    cases op with
    | opStoreBuild nt tg inp now =>
      simp only [cellarStep, Option.map_eq_some'] at hstep
      obtain ⟨⟨s2, res⟩, hsb, rfl⟩ := hstep
      simp only [store_build, Option.bind_eq_bind, Option.bind_eq_some,
        Option.some.injEq] at hsb
      obtain ⟨sB, hsTexts, hfin⟩ := hsb
      have hB : sB = s2 := congrArg Prod.fst hfin
      subst hB
      have htasks := storeTexts_tasks inp _ sB hsTexts
      intro row hmem
      rw [htasks] at hmem
      exact tasksOk_insertAll nt s.tasks hinv hfresh row hmem
    | opStore h src =>
      simp only [cellarStep, Option.map_eq_some'] at hstep
      obtain ⟨⟨r, s1⟩, hsb, rfl⟩ := hstep
      obtain ⟨htasks, -, -, -, -⟩ := store_spec s h src r s1 hsb
      intro row hmem
      exact hinv row (htasks ▸ hmem)
    | opSeal h outs houts =>
      exact hinvSeal s s' h outs houts hinv hstep
    | opReset h =>
      exact hinvUpd s s' h State.CLEAN [] hinv hokClean hstep
    | opResetHard h =>
      simp only [cellarStep, resetHard] at hstep
      split at hstep
      · exact hinvUpd s s' h State.CLEAN [] hinv hokClean hstep
      · cases hstep
        exact hinv
    | opGc fuel =>
      simp only [cellarStep, gcRun, Option.bind_eq_bind, Option.bind_eq_some,
        Option.some.injEq] at hstep
      obtain ⟨⟨objs, tree⟩, -, rfl⟩ := hstep
      intro row hmem
      exact hinv row (List.mem_of_mem_filter hmem)
  · intro s s' h outs hcc ho hst
    unfold seal_task at hst
    rw [if_neg ho] at hst
    simp only [Option.bind_eq_bind, Option.bind_eq_some] at hst
    obtain ⟨⟨s1, houts⟩, hsof, hupd⟩ := hst
    obtain ⟨hcc1, htasks, hlen, hmono, hfiles⟩ :=
      storeOutputFiles_spec dig outs s s1 houts hcc hsof
    replace hupd : (if houts = [] then none
        else updateOutputs s1 h State.DONE houts) = some s' := hupd
    split at hupd
    · cases hupd
    · rename_i hne
      obtain ⟨row0, hrow, rfl⟩ := updateOutputs_eq_some s1 h State.DONE houts s' hupd
      obtain ⟨T, st⟩ := row0
      refine ⟨houts, T, st, hne, hlen, htasks ▸ hrow, ?_, ?_, ?_⟩
      · exact lookup_update_self s1.tasks h _ (by rw [hrow]; rfl)
      · intro nf hmem
        exact hfiles nf hmem
      · intro h2 hne2
        rw [lookup_update_ne s1.tasks h h2 _ hne2, htasks]
  · intro s h hst
    unfold resetHard
    rw [if_pos hst]

theorem outputs_invariant_seal_reset_witness :
    seal_task (fun x => x) s9 h9 [] [("out".data, "ff".data)] = some s9sealed ∧
    OutputsInv s9sealed := by
  have hinv9 : OutputsInv s9 := by
    intro row hmem
    have : row = (h9, t9, State.CLEAN) := by simpa [s9] using hmem
    subst this
    exact ⟨fun hd => (nomatch hd), fun _ => Or.inl rfl⟩
  have hB := (outputs_invariant_seal_reset (fun x => x)).2.1 s9 h9 t9 State.CLEAN
    [("out".data, "ff".data)] (by decide) (by decide)
  have hseal : seal_task (fun x => x) s9 h9 [] [("out".data, "ff".data)] =
      some s9sealed := by
    rw [hB]
    decide
  refine ⟨hseal, ?_⟩
  exact (outputs_invariant_seal_reset (fun x => x)).1 s9 s9sealed
    (.opSeal h9 [] [("out".data, "ff".data)]) hinv9 trivial hseal

theorem flatMap_congr_mem {α β : Type} (l : List α) (f g : α → List β)
    (h : ∀ a ∈ l, f a = g a) : l.flatMap f = l.flatMap g := by
  induction l with
  | nil => rfl
  | cons a rest ih =>
    simp only [List.flatMap_cons]
    rw [h a (List.mem_cons_self _ _), ih fun b hb => h b (List.mem_cons_of_mem _ hb)]

theorem notifyDepants_spec {V : Type} [DecidableEq V] (i : FId) :
    ∀ (js : List FId) (w : World V), js.Nodup →
    (∀ j ∈ js, ∃ dj, List.lookup j w = some dj ∧ i ∈ dj.pending) →
    ∃ w2 evs, notifyDepants i w js = some (w2, evs) ∧
      (∀ k, k ∉ js → List.lookup k w2 = List.lookup k w) ∧
      (∀ j ∈ js, ∀ dj, List.lookup j w = some dj →
        List.lookup j w2 = some { dj with pending := dj.pending.erase i }) ∧
      evs = js.flatMap (fun j =>
        match List.lookup j w with
        | some dj => Ev.depDone j i ::
            (if dj.pending.erase i = [] then dj.readyCbs.map (Ev.readyCb j) else [])
        | none => []) := by
  intro js
  induction js with
  | nil =>
    intro w _ _
    exact ⟨w, [], rfl, fun k _ => rfl,
      fun j hj => absurd hj (List.not_mem_nil j), rfl⟩
  | cons j rest ih =>
    intro w hnodup hdeps
    obtain ⟨dj, hdj, hpend⟩ := hdeps j (List.mem_cons_self _ _)
    obtain ⟨hjrest, hnodup2⟩ := List.nodup_cons.1 hnodup
    have hdep : dep_done w j i =
        some (setFut w j { dj with pending := dj.pending.erase i },
          Ev.depDone j i :: (if dj.pending.erase i = [] then
            dj.readyCbs.map (Ev.readyCb j) else [])) := by
      unfold dep_done
      rw [hdj]
      simp [hpend]
    have hkeep1 : ∀ k, k ≠ j →
        List.lookup k (setFut w j { dj with pending := dj.pending.erase i }) =
          List.lookup k w := by
      intro k hk
      exact lookup_update_ne w j k _ hk
    have hdeps2 : ∀ a ∈ rest,
        ∃ da, List.lookup a (setFut w j { dj with pending := dj.pending.erase i }) =
          some da ∧ i ∈ da.pending := by
      intro a ha
      obtain ⟨da, hda, hp⟩ := hdeps a (List.mem_cons_of_mem _ ha)
      have hane : a ≠ j := fun he => hjrest (he ▸ ha)
      exact ⟨da, by rw [hkeep1 a hane]; exact hda, hp⟩
    obtain ⟨w2, evs2, hrun2, hkeep2, hupd2, hevs2⟩ := ih _ hnodup2 hdeps2
    refine ⟨w2, (Ev.depDone j i :: (if dj.pending.erase i = [] then
      dj.readyCbs.map (Ev.readyCb j) else [])) ++ evs2, ?_, ?_, ?_, ?_⟩
    · simp only [notifyDepants, hdep, Option.bind_eq_bind, Option.some_bind, hrun2]
      rfl
    · intro k hk
      have hk1 : k ≠ j := fun he => hk (he ▸ List.mem_cons_self _ _)
      have hk2 : k ∉ rest := fun hm => hk (List.mem_cons_of_mem _ hm)
      rw [hkeep2 k hk2, hkeep1 k hk1]
    · intro a ha da hda
      rcases List.mem_cons.1 ha with rfl | ha2
      · have : dj = da := by
          rw [hdj] at hda
          exact Option.some.inj hda
        subst this
        rw [hkeep2 a hjrest]
        exact lookup_update_self w a _ (by rw [hdj]; rfl)
      · have hane : a ≠ j := fun he => hjrest (he ▸ ha2)
        exact hupd2 a ha2 da (by rw [hkeep1 a hane]; exact hda)
    · simp only [List.flatMap_cons, hdj]
      congr 1
      rw [hevs2]
      refine flatMap_congr_mem rest _ _ ?_
      intro a ha
      have hane : a ≠ j := fun he => hjrest (he ▸ ha)
      rw [hkeep1 a hane]

/-- Claim C5: set_result only succeeds when the future is ready with an unset
result; on success it stores the result (and a second set_result on the same
future fails, so the UNSET to set transition happens exactly once), every
dependant drops the finished future from its pending set, and the trace is the
dependant notifications, in which a dependant whose pending set became empty
fires its ready-callbacks in registration order, followed by this future's
done-callbacks in registration order; add_done_callback on a done future
fails. -/
theorem set_result_protocol {V : Type} [DecidableEq V] :
    (∀ (w : World V) (i : FId) (v : V), (set_result w i v).isSome = true →
      ∃ d, List.lookup i w = some d ∧ d.pending = [] ∧ d.result = none) ∧
    (∀ (w : World V) (i : FId) (v : V) (d : FutData V),
      List.lookup i w = some d → d.pending = [] → d.result = none →
      d.depants.Nodup → i ∉ d.depants →
      (∀ j ∈ d.depants, ∃ dj, List.lookup j w = some dj ∧ i ∈ dj.pending) →
      ∃ w2 tr, set_result w i v = some (w2, tr) ∧
        List.lookup i w2 = some { d with result := some v } ∧
        set_result w2 i v = none ∧
        (∀ j ∈ d.depants, ∀ dj, List.lookup j w = some dj →
          List.lookup j w2 = some { dj with pending := dj.pending.erase i }) ∧
        ∃ f : FId → List Ev,
          tr = d.depants.flatMap f ++ d.doneCbs.map (Ev.doneCb i) ∧
          ∀ j ∈ d.depants, ∀ dj, List.lookup j w = some dj →
            f j = Ev.depDone j i :: (if dj.pending.erase i = [] then
              dj.readyCbs.map (Ev.readyCb j) else [])) ∧
    (∀ (w : World V) (i : FId) (cb : CbId) (d : FutData V),
      List.lookup i w = some d → d.result.isSome = true →
      add_done_callback w i cb = none) := by
  refine ⟨?_, ?_, ?_⟩
  · intro w i v hsome
    cases hlook : List.lookup i w with
    | none =>
      rw [show set_result w i v = none from by
        unfold set_result
        rw [hlook]
        rfl] at hsome
      cases hsome
    | some d =>
      by_cases hc : d.pending = [] ∧ d.result = none
      · exact ⟨d, rfl, hc.1, hc.2⟩
      · rw [show set_result w i v = none from by
          unfold set_result
          rw [hlook]
          show (if d.pending = [] ∧ d.result = none then _ else none) = none
          rw [if_neg hc]] at hsome
        cases hsome
  · intro w i v d hlook hpend hres hnodup hni hdeps
    have hlook1 : List.lookup i (setFut w i { d with result := some v }) =
        some { d with result := some v } :=
      lookup_update_self w i _ (by rw [hlook]; rfl)
    have hkeep1 : ∀ k, k ≠ i →
        List.lookup k (setFut w i { d with result := some v }) =
          List.lookup k w := by
      intro k hk
      exact lookup_update_ne w i k _ hk
    have hdeps1 : ∀ j ∈ d.depants,
        ∃ dj, List.lookup j (setFut w i { d with result := some v }) = some dj ∧
          i ∈ dj.pending := by
      intro j hj
      obtain ⟨dj, hdj, hp⟩ := hdeps j hj
      have hne : j ≠ i := fun he => hni (he ▸ hj)
      exact ⟨dj, by rw [hkeep1 j hne]; exact hdj, hp⟩
    obtain ⟨w2, evs, hrun, hkeep2, hupd2, hevs⟩ :=
      notifyDepants_spec i d.depants _ hnodup hdeps1
    have hlook2 : List.lookup i w2 = some { d with result := some v } := by
      rw [hkeep2 i hni, hlook1]
    refine ⟨w2, evs ++ d.doneCbs.map (Ev.doneCb i), ?_, hlook2, ?_, ?_, ?_⟩
    · unfold set_result
      rw [hlook]
      show (if d.pending = [] ∧ d.result = none then _ else none) = _
      rw [if_pos ⟨hpend, hres⟩]
      show (notifyDepants i (setFut w i { d with result := some v })
        d.depants).bind _ = _
      rw [hrun]
      rfl
    · unfold set_result
      rw [hlook2]
      show (if FutData.pending { d with result := some v } = [] ∧
        FutData.result { d with result := some v } = none then _ else none) = _
      rw [if_neg (by simp)]
    · intro j hj dj hdj
      have hne : j ≠ i := fun he => hni (he ▸ hj)
      exact hupd2 j hj dj (by rw [hkeep1 j hne]; exact hdj)
    · refine ⟨fun j =>
        match List.lookup j (setFut w i { d with result := some v }) with
        | some dj => Ev.depDone j i :: (if dj.pending.erase i = [] then
            dj.readyCbs.map (Ev.readyCb j) else [])
        | none => [], ?_, ?_⟩
      · rw [hevs]
      · intro j hj dj hdj
        have hne : j ≠ i := fun he => hni (he ▸ hj)
        simp only [hkeep1 j hne, hdj]
  · intro w i cb d hlook hres
    unfold add_done_callback
    rw [hlook]
    show (if d.result = none then _ else none) = _
    rw [if_neg (by
      intro he
      rw [he] at hres
      cases hres)]

theorem set_result_protocol_witness :
    set_result w5 1 42 = some (w5After,
      [Ev.depDone 2 1, Ev.readyCb 2 7, Ev.doneCb 1 5]) ∧
    List.lookup 1 w5After = some ⟨"aa".data, [], [2], some 42, [], [5]⟩ ∧
    set_result w5After 1 42 = none ∧
    add_done_callback w5After 1 3 = none := by
  obtain ⟨w2, tr, hrun, hlook2, hagain, -, -⟩ :=
    set_result_protocol.2.1 w5 1 42 ⟨"aa".data, [], [2], none, [], [5]⟩
      (by decide) rfl rfl (by decide) (by decide)
      (by
        intro j hj
        have : j = 2 := by simpa using hj
        subst this
        exact ⟨⟨"bb".data, [1], [], none, [7], []⟩, by decide, by decide⟩)
  have hconc : set_result w5 1 42 = some (w5After,
      [Ev.depDone 2 1, Ev.readyCb 2 7, Ev.doneCb 1 5]) := by decide
  have hpair : w2 = w5After ∧ tr = [Ev.depDone 2 1, Ev.readyCb 2 7, Ev.doneCb 1 5] := by
    have := hrun.symm.trans hconc
    simpa using this
  obtain ⟨rfl, rfl⟩ := hpair
  exact ⟨hconc, hlook2, hagain,
    set_result_protocol.2.2 w5After 1 3 ⟨"aa".data, [], [2], some 42, [], [5]⟩
      (by decide) (by decide)⟩

theorem lookup_cons_self {κ β : Type} [BEq κ] [LawfulBEq κ] (k : κ) (v : β)
    (l : List (κ × β)) : List.lookup k ((k, v) :: l) = some v := by
  rw [List.lookup_cons, beq_self_eq_true]

theorem lookup_cons_ne {κ β : Type} [BEq κ] [LawfulBEq κ] (k k2 : κ) (v : β)
    (l : List (κ × β)) (hne : k2 ≠ k) :
    List.lookup k2 ((k, v) :: l) = List.lookup k2 l := by
  rw [List.lookup_cons, beq_eq_false_iff_ne.mpr hne]

theorem mem_keys_of_lookup_isSome {κ β : Type} [BEq κ] [LawfulBEq κ] (k : κ)
    (l : List (κ × β)) (h : (List.lookup k l).isSome = true) :
    k ∈ l.map Prod.fst := by
  induction l with
  | nil => cases h
  | cons p ps ih =>
    obtain ⟨pk, pv⟩ := p
    by_cases hk : k = pk
    · subst hk
      exact List.mem_cons_self _ _
    · rw [lookup_cons_ne pk k pv ps hk] at h
      exact List.mem_cons_of_mem _ (ih h)

theorem not_mem_keys_of_lookup_none {κ β : Type} [BEq κ] [LawfulBEq κ] (k : κ)
    (l : List (κ × β)) (h : List.lookup k l = none) : k ∉ l.map Prod.fst := by
  intro hmem
  have : (List.lookup k l).isSome = true := by
    induction l with
    | nil => cases hmem
    | cons p ps ih =>
      obtain ⟨pk, pv⟩ := p
      by_cases hk : k = pk
      · subst hk
        rw [lookup_cons_self]
        rfl
      · rw [lookup_cons_ne pk k pv ps hk]
        rw [lookup_cons_ne pk k pv ps hk] at h
        exact ih h (by simpa [hk] using hmem)
  rw [h] at this
  cases this

theorem lookupHashids_isSome {V : Type} (args : List FId) :
    ∀ (w : World V) (r : List Str), lookupHashids w args = some r →
    ∀ a ∈ args, (List.lookup a w).isSome = true := by
  induction args with
  | nil =>
    intro w r _ a ha
    exact absurd ha (List.not_mem_nil a)
  | cons a rest ih =>
    intro w r hr b hb
    simp only [lookupHashids, Option.bind_eq_bind, Option.bind_eq_some,
      Option.some.injEq] at hr
    obtain ⟨d, hd, rs, hrs, -⟩ := hr
    rcases List.mem_cons.1 hb with rfl | hb2
    · rw [hd]
      rfl
    · exact ih w rs hrs b hb2

theorem lookupHashids_congr {V : Type} (args : List FId) (w w2 : World V)
    (h : ∀ a ∈ args, Option.map FutData.hashid (List.lookup a w2) =
      Option.map FutData.hashid (List.lookup a w)) :
    lookupHashids w2 args = lookupHashids w args := by
  induction args with
  | nil => rfl
  | cons a rest ih =>
    have ha := h a (List.mem_cons_self _ _)
    have hrest := ih fun b hb => h b (List.mem_cons_of_mem _ hb)
    simp only [lookupHashids, Option.bind_eq_bind]
    cases hw : List.lookup a w with
    | none =>
      rw [hw] at ha
      rw [Option.map_eq_none'.1 ha]
      rfl
    | some d =>
      rw [hw] at ha
      cases hw2 : List.lookup a w2 with
      | none =>
        rw [hw2] at ha
        cases ha
      | some d2 =>
        rw [hw2] at ha
        simp only [Option.map_some', Option.some.injEq] at ha
        simp only [Option.some_bind, hrest]
        cases hr : lookupHashids w rest with
        | none => rfl
        | some rs => simp [ha]

theorem lookup_setFut_self {V : Type} [DecidableEq V] (w : World V) (i : FId)
    (d : FutData V) (h : (List.lookup i w).isSome = true) :
    List.lookup i (setFut w i d) = some d :=
  lookup_update_self w i d h

theorem lookup_setFut_ne {V : Type} [DecidableEq V] (w : World V) (i k : FId)
    (d : FutData V) (hk : k ≠ i) :
    List.lookup k (setFut w i d) = List.lookup k w :=
  lookup_update_ne w i k d hk

theorem linkArgs_spec {V : Type} [DecidableEq V] (fid : FId) (as : List FId) :
    ∀ (w w1 : World V) (pend : List FId), linkArgs fid w as = some (w1, pend) →
    ∀ k, Option.map FutData.hashid (List.lookup k w1) =
      Option.map FutData.hashid (List.lookup k w) := by
  induction as with
  | nil =>
    intro w w1 pend hla k
    simp only [linkArgs, Option.some.injEq, Prod.mk.injEq] at hla
    obtain ⟨rfl, -⟩ := hla
    rfl
  | cons a rest ih =>
    intro w w1 pend hla k
    simp only [linkArgs, Option.bind_eq_bind, Option.bind_eq_some] at hla
    obtain ⟨da, hda, hla2⟩ := hla
    split at hla2
    · exact ih w w1 pend hla2 k
    · simp only [Option.bind_eq_some, Option.some.injEq, Prod.mk.injEq] at hla2
      obtain ⟨⟨w2, r2⟩, hrec, hw2, -⟩ := hla2
      subst hw2
      rw [ih _ w2 r2 hrec k]
      by_cases hk : k = a
      · subst hk
        rw [lookup_setFut_self w k _ (by rw [hda]; rfl), hda]
        rfl
      · rw [lookup_setFut_ne w a k _ hk]

/-- Claim C6: within one session create_task is idempotent: a second call with
the same rule fullname and the same argument futures computes the same hash,
returns the task object registered by the first call, and leaves the session
state untouched, and the task registry keeps one entry per hash. -/
theorem create_task_idempotent {V : Type} [DecidableEq V] (dig : Str → Str)
    (s : SessionSt V) (fullname : Str) (args : List FId) (t1 : FId)
    (s1 : SessionSt V)
    (hfreshId : s.nextId ∉ s.world.map Prod.fst)
    (hkeys : (s.tasks.map Prod.fst).Nodup)
    (hfirst : create_task dig s fullname args = some (t1, s1)) :
    create_task dig s1 fullname args = some (t1, s1) ∧
    (s1.tasks.map Prod.fst).Nodup := by
  simp only [create_task, Option.bind_eq_bind, Option.bind_eq_some] at hfirst
  obtain ⟨argHashes, hmapM, hrest⟩ := hfirst
  cases hlook : List.lookup (dig (taskHashStr fullname argHashes)) s.tasks with
  | some t =>
    rw [hlook] at hrest
    simp only [Option.some.injEq, Prod.mk.injEq] at hrest
    obtain ⟨rfl, rfl⟩ := hrest
    constructor
    · simp only [create_task, Option.bind_eq_bind, hmapM, Option.some_bind, hlook]
    · exact hkeys
  | none =>
    rw [hlook] at hrest
    simp only [Option.bind_eq_bind, Option.bind_eq_some] at hrest
    obtain ⟨⟨w1, pend⟩, hlink, hfin⟩ := hrest
    have hhashids : ∀ a ∈ args,
        Option.map FutData.hashid (List.lookup a w1) =
          Option.map FutData.hashid (List.lookup a s.world) :=
      fun a _ => linkArgs_spec s.nextId args s.world w1 pend hlink a
    have hne : ∀ a ∈ args, a ≠ s.nextId := by
      intro a ha he
      exact hfreshId (he ▸ mem_keys_of_lookup_isSome a s.world
        (lookupHashids_isSome args s.world argHashes hmapM a ha))
    have hmap2 : ∀ fut : FutData V,
        lookupHashids ((s.nextId, fut) :: w1) args = some argHashes := by
      intro fut
      rw [lookupHashids_congr args s.world ((s.nextId, fut) :: w1) ?_]
      · exact hmapM
      · intro a ha
        rw [lookup_cons_ne s.nextId a fut w1 (hne a ha)]
        exact hhashids a ha
    have hnodup2 : ((dig (taskHashStr fullname argHashes) :: s.tasks.map Prod.fst)).Nodup := by
      simp only [List.nodup_cons]
      exact ⟨not_mem_keys_of_lookup_none _ s.tasks hlook, hkeys⟩
    split at hfin
    · simp only [Option.some.injEq, Prod.mk.injEq] at hfin
      obtain ⟨rfl, rfl⟩ := hfin
      constructor
      · simp only [create_task, Option.bind_eq_bind, hmap2, Option.some_bind,
          lookup_cons_self]
      · simpa using hnodup2
    · simp only [Option.some.injEq, Prod.mk.injEq] at hfin
      obtain ⟨rfl, rfl⟩ := hfin
      constructor
      · simp only [create_task, Option.bind_eq_bind, hmap2, Option.some_bind,
          lookup_cons_self]
      · simpa using hnodup2

theorem create_task_idempotent_witness :
    create_task (fun x => x) s6After fullname6 [] = some (0, s6After) ∧
    (s6After.tasks.map Prod.fst).Nodup := by
  have h := create_task_idempotent (V := Nat) (fun x => x) s6 fullname6 [] 0 s6After
    (by decide) (by decide) (by decide)
  exact h

theorem escapeChar_plain {c : Char} (h : plainChar c = true) : escapeChar c = [c] := by
  simp only [plainChar, Bool.and_eq_true, decide_eq_true_eq, Bool.not_eq_true',
    decide_eq_false_iff_not] at h
  obtain ⟨⟨⟨h1, h2⟩, h3⟩, h4⟩ := h
  have hn : c ≠ '\n' := by
    intro e
    rw [e] at h1
    exact absurd h1 (by decide)
  have ht : c ≠ '\t' := by
    intro e
    rw [e] at h1
    exact absurd h1 (by decide)
  have hr : c ≠ '\r' := by
    intro e
    rw [e] at h1
    exact absurd h1 (by decide)
  have hb : c ≠ Char.ofNat 8 := by
    intro e
    rw [e] at h1
    exact absurd h1 (by decide)
  have hf : c ≠ Char.ofNat 12 := by
    intro e
    rw [e] at h1
    exact absurd h1 (by decide)
  simp [escapeChar, h3, h4, hn, ht, hr, hb, hf, h1, h2]

theorem flatMap_escape_plain (s : Str) (h : plainStr s = true) :
    s.flatMap escapeChar = s := by
  induction s with
  | nil => rfl
  | cons c cs ih =>
    simp only [plainStr, List.all_cons, Bool.and_eq_true] at h
    simp only [List.flatMap_cons, escapeChar_plain h.1,
      ih (by simpa [plainStr] using h.2)]
    rfl

theorem encStr_plain (s : Str) (h : plainStr s = true) :
    encStr s = '"' :: s ++ ['"'] := by
  simp [encStr, flatMap_escape_plain s h]

theorem noquote_of_plain (s : Str) (h : plainStr s = true) : '"' ∉ s := by
  intro hmem
  simp only [plainStr, List.all_eq_true] at h
  have := h '"' hmem
  simp [plainChar] at this

theorem map_congr_mem {α β : Type} (l : List α) (f g : α → β)
    (h : ∀ a ∈ l, f a = g a) : l.map f = l.map g := by
  induction l with
  | nil => rfl
  | cons a rest ih =>
    simp only [List.map_cons]
    rw [h a (List.mem_cons_self _ _), ih fun b hb => h b (List.mem_cons_of_mem _ hb)]

/-- Unique tokenization of a quoted maximal quote-free run: if two quote-free
strings followed by a closing quote produce the same character stream, they
and their continuations agree. -/
theorem quote_token : ∀ (a b r1 r2 : Str), '"' ∉ a → '"' ∉ b →
    a ++ '"' :: r1 = b ++ '"' :: r2 → a = b ∧ r1 = r2 := by
  intro a
  induction a with
  | nil =>
    intro b r1 r2 _ hb h
    cases b with
    | nil =>
      simp only [List.nil_append, List.cons.injEq] at h
      exact ⟨rfl, h.2⟩
    | cons y bs =>
      simp only [List.nil_append, List.cons_append, List.cons.injEq] at h
      refine absurd ?_ hb
      rw [← h.1]
      exact List.mem_cons_self _ _
  | cons x as ih =>
    intro b r1 r2 ha hb h
    cases b with
    | nil =>
      simp only [List.cons_append, List.nil_append, List.cons.injEq] at h
      refine absurd ?_ ha
      rw [h.1]
      exact List.mem_cons_self _ _
    | cons y bs =>
      simp only [List.cons_append, List.cons.injEq] at h
      obtain ⟨rfl, h2⟩ := h
      have ha2 : '"' ∉ as := fun hm => ha (List.mem_cons_of_mem _ hm)
      have hb2 : '"' ∉ bs := fun hm => hb (List.mem_cons_of_mem _ hm)
      obtain ⟨rfl, hr⟩ := ih bs r1 r2 ha2 hb2 h2
      exact ⟨rfl, hr⟩

theorem sepByCommaSpace_cons (s : Str) (rest : List Str) :
    sepByCommaSpace (s :: rest) = s ++
      (if rest = [] then [] else ',' :: ' ' :: sepByCommaSpace rest) := by
  cases rest with
  | nil => simp [sepByCommaSpace]
  | cons t ts => simp [sepByCommaSpace]

/-- Injectivity of the rendered item list of a JSON array of quote-free
strings, including the closing bracket of the array. -/
theorem arr_items_inj : ∀ (xs ys : List Str), (∀ s ∈ xs, '"' ∉ s) →
    (∀ s ∈ ys, '"' ∉ s) →
    sepByCommaSpace (xs.map fun s => '"' :: s ++ ['"']) ++ [']'] =
      sepByCommaSpace (ys.map fun s => '"' :: s ++ ['"']) ++ [']'] → xs = ys := by
  intro xs
  induction xs with
  | nil =>
    intro ys _ _ h
    cases ys with
    | nil => rfl
    | cons y ys2 =>
      rw [List.map_cons, sepByCommaSpace_cons] at h
      simp only [sepByCommaSpace, List.map_nil, List.nil_append, List.cons_append,
        List.append_assoc, List.cons.injEq] at h
      exact absurd h.1 (by decide)
  | cons x xs2 ih =>
    intro ys hx hy h
    cases ys with
    | nil =>
      rw [List.map_cons, sepByCommaSpace_cons] at h
      simp only [sepByCommaSpace, List.map_nil, List.nil_append, List.cons_append,
        List.append_assoc, List.cons.injEq] at h
      exact absurd h.1 (by decide)
    | cons y ys2 =>
      rw [List.map_cons, sepByCommaSpace_cons, List.map_cons,
        sepByCommaSpace_cons] at h
      simp only [List.cons_append, List.append_assoc, List.cons.injEq] at h
      obtain ⟨-, h2⟩ := h
      have hq : x ++ '"' :: ((if xs2.map (fun s => '"' :: s ++ ['"']) = [] then []
            else ',' :: ' ' :: sepByCommaSpace (xs2.map fun s => '"' :: s ++ ['"'])) ++ [']']) =
          y ++ '"' :: ((if ys2.map (fun s => '"' :: s ++ ['"']) = [] then []
            else ',' :: ' ' :: sepByCommaSpace (ys2.map fun s => '"' :: s ++ ['"'])) ++ [']']) := by
        simpa using h2
      obtain ⟨rfl, hr⟩ := quote_token x y _ _
        (hx x (List.mem_cons_self _ _)) (hy y (List.mem_cons_self _ _)) hq
      cases xs2 with
      | nil =>
        cases ys2 with
        | nil => rfl
        | cons z zs =>
          simp only [List.map_nil, List.map_cons] at hr
          rw [if_pos (by trivial)] at hr
          rw [if_neg (by simp)] at hr
          simp only [List.nil_append, List.cons_append, List.cons.injEq] at hr
          exact absurd hr.1 (by decide)
      | cons u us =>
        cases ys2 with
        | nil =>
          simp only [List.map_nil, List.map_cons] at hr
          rw [if_neg (by simp)] at hr
          rw [if_pos (by trivial)] at hr
          simp only [List.nil_append, List.cons_append, List.cons.injEq] at hr
          exact absurd hr.1 (by decide)
        | cons z zs =>
          simp only [List.map_cons] at hr
          rw [if_neg (by simp), if_neg (by simp)] at hr
          simp only [List.cons_append, List.cons.injEq] at hr
          have := ih (z :: zs) (fun s hs => hx s (List.mem_cons_of_mem _ hs))
            (fun s hs => hy s (List.mem_cons_of_mem _ hs)) (by
              simp only [List.map_cons]
              exact hr.2.2)
          rw [this]

/-- Claim C1: with the SHA-1 digest modelled as an injective function on the
hashed strings (the collision-freeness that content addressing assumes, and
that the spec states as an invariant), two tasks created via
Session.create_task have equal hashes exactly when their rule fullnames and
their ordered argument hash id lists are equal; the hashed string is the JSON
serialization of the list of the fullname followed by the argument hash
ids.  Rule fullnames and hash ids consist of plain printable ASCII, stated
here as the plainStr hypotheses. -/
theorem create_task_hash_identity {α : Type} (H : Str → α)
    (hH : Function.Injective H) (f1 f2 : Str) (as1 as2 : List Str)
    (hp1 : plainStr f1 = true) (hp2 : ∀ s ∈ as1, plainStr s = true)
    (hp3 : plainStr f2 = true) (hp4 : ∀ s ∈ as2, plainStr s = true) :
    H (taskHashStr f1 as1) = H (taskHashStr f2 as2) ↔ (f1 = f2 ∧ as1 = as2) := by
  have hplain1 : ∀ s ∈ f1 :: as1, plainStr s = true := by
    intro s hs
    rcases List.mem_cons.1 hs with rfl | hs2
    · exact hp1
    · exact hp2 s hs2
  have hplain2 : ∀ s ∈ f2 :: as2, plainStr s = true := by
    intro s hs
    rcases List.mem_cons.1 hs with rfl | hs2
    · exact hp3
    · exact hp4 s hs2
  constructor
  · intro h
    have heq := hH h
    unfold taskHashStr renderArr at heq
    rw [map_congr_mem (f1 :: as1) encStr (fun s => '"' :: s ++ ['"'])
          (fun s hs => encStr_plain s (hplain1 s hs)),
        map_congr_mem (f2 :: as2) encStr (fun s => '"' :: s ++ ['"'])
          (fun s hs => encStr_plain s (hplain2 s hs))] at heq
    simp only [List.cons_append, List.cons.injEq] at heq
    obtain ⟨-, h2⟩ := heq
    have hall := arr_items_inj (f1 :: as1) (f2 :: as2)
      (fun s hs => noquote_of_plain s (hplain1 s hs))
      (fun s hs => noquote_of_plain s (hplain2 s hs)) h2
    simp only [List.cons.injEq] at hall
    exact hall
  · rintro ⟨rfl, rfl⟩
    rfl

theorem create_task_hash_identity_witness :
    taskHashStr ("m:f".data) ["aa".data] ≠ taskHashStr ("m:f".data) ["bb".data] := by
  intro heq
  have h := (create_task_hash_identity (id : Str → Str) Function.injective_id
    ("m:f".data) ("m:f".data) ["aa".data] ["bb".data]
    (by decide) (by decide) (by decide) (by decide)).1 heq
  exact absurd h.2 (by decide)

theorem popSD_spec {N : Type} (depth : Bool) (q : List N) (n : N) (rest : List N)
    (h : popSD depth q = some (n, rest)) : q = n :: rest ∨ q = rest ++ [n] := by
  unfold popSD at h
  cases depth with
  | false =>
    rw [if_neg (by simp)] at h
    cases q with
    | nil => cases h
    | cons a as =>
      simp only [Option.some.injEq, Prod.mk.injEq] at h
      rcases h with ⟨rfl, rfl⟩
      exact Or.inl rfl
  | true =>
    rw [if_pos rfl] at h
    cases hq : q.getLast? with
    | none => rw [hq] at h; cases h
    | some m =>
      rw [hq] at h
      simp only [Option.some.injEq, Prod.mk.injEq] at h
      rcases h with ⟨rfl, rfl⟩
      exact Or.inr (List.dropLast_append_getLast? _ hq).symm

theorem enqueue_inv {N : Type} [DecidableEq N] (P : TravPar N) (c : TravCfg N)
    (src : List N) (hinv : TravInv P c) : TravInv P (enqueue c src) := by
  obtain ⟨h1, h2, h2s, h3, h4, h5⟩ := hinv
  have hxsnodup : (((src.filter fun x => ¬ x ∈ c.visited).dedup).filter
      fun x => ¬ x ∈ c.toVisitSet).Nodup :=
    (List.nodup_dedup _).filter _
  have hxsq : ∀ x ∈ ((src.filter fun x => ¬ x ∈ c.visited).dedup).filter
      (fun x => ¬ x ∈ c.toVisitSet), x ∉ c.toVisitQ := by
    intro x hx
    have := (List.mem_filter.1 hx).2
    simp only [decide_eq_true_eq] at this
    intro hq
    exact this ((h4 x).2 hq)
  have hxsset : ∀ x ∈ ((src.filter fun x => ¬ x ∈ c.visited).dedup).filter
      (fun x => ¬ x ∈ c.toVisitSet), x ∉ c.toVisitSet := by
    intro x hx
    have := (List.mem_filter.1 hx).2
    simp only [decide_eq_true_eq] at this
    exact this
  have hxsvis : ∀ x ∈ ((src.filter fun x => ¬ x ∈ c.visited).dedup).filter
      (fun x => ¬ x ∈ c.toVisitSet), x ∉ c.visited := by
    intro x hx
    have hx2 := List.mem_dedup.1 (List.mem_filter.1 hx).1
    have := (List.mem_filter.1 hx2).2
    simp only [decide_eq_true_eq] at this
    exact this
  unfold TravInv enqueue
  dsimp only
  refine ⟨h1, ?_, ?_, ?_, ?_, h5⟩
  · exact List.nodup_append.2 ⟨h2, hxsnodup, fun a ha hax => hxsq a hax ha⟩
  · exact List.nodup_append.2 ⟨h2s, hxsnodup, fun a ha hax => hxsset a hax ha⟩
  · intro n hn
    rcases List.mem_append.1 hn with hn2 | hn2
    · exact h3 n hn2
    · exact hxsvis n hn2
  · intro n
    simp only [List.mem_append, h4 n]

theorem deliver_inv {N : Type} [DecidableEq N] (P : TravPar N) (c : TravCfg N)
    (payload : List N) (hinv : TravInv P c) :
    TravInv P (deliverPayload c payload) := hinv

/-- One controller step preserves the loop invariant; a TRAVERSE step on n
appends exactly n to visited and n was unvisited, and the other steps leave
visited alone. -/
theorem stepTrav_next_inv {N : Type} [DecidableEq N] (P : TravPar N)
    (c c2 : TravCfg N) (s : TravStep N) (h : stepTrav P c = .next s c2)
    (hinv : TravInv P c) :
    TravInv P c2 ∧
    (∀ n, s = .traverseStep n → c2.visited = c.visited ++ [n] ∧ n ∉ c.visited) ∧
    ((s = .resultsStep ∨ ∃ n, s = .executeStep n) → c2.visited = c.visited) := by
  obtain ⟨h1, h2, h2s, h3, h4, h5⟩ := hinv
  unfold stepTrav at h
  split at h
  · split at h
    · cases h
    · cases h
  · split at h
    · cases h
    · rename_i n rest hpop
      have hshape := popSD_spec P.depth c.toVisitQ n rest hpop
      have hnq : n ∈ c.toVisitQ := by
        rcases hshape with he | he
        · rw [he]
          exact List.mem_cons_self _ _
        · rw [he]
          exact List.mem_append.2 (Or.inr (List.mem_cons_self _ _))
      have hnvis : n ∉ c.visited := h3 n hnq
      have hvisn : (c.visited ++ [n]).Nodup := by
        refine List.nodup_append.2 ⟨h1, List.nodup_singleton n, ?_⟩
        intro a ha hax
        have : a = n := by simpa using hax
        subst this
        exact hnvis ha
      have hrestq : ∀ x ∈ rest, x ∈ c.toVisitQ := by
        intro x hx
        rcases hshape with he | he
        · rw [he]
          exact List.mem_cons_of_mem _ hx
        · rw [he]
          exact List.mem_append.2 (Or.inl hx)
      have hqrw : c.toVisitQ.Nodup := h2
      have hrestnodup : rest.Nodup := by
        rcases hshape with he | he
        · rw [he] at hqrw
          exact (List.nodup_cons.1 hqrw).2
        · rw [he] at hqrw
          exact (List.nodup_append.1 hqrw).1
      have hnrest : n ∉ rest := by
        rcases hshape with he | he
        · rw [he] at hqrw
          exact (List.nodup_cons.1 hqrw).1
        · rw [he] at hqrw
          intro hx
          exact (List.nodup_append.1 hqrw).2.2 hx (List.mem_cons_self _ _)
      have hrestvis : ∀ x ∈ rest, x ∉ c.visited ++ [n] := by
        intro x hx hmem
        rcases List.mem_append.1 hmem with hm | hm
        · exact h3 x (hrestq x hx) hm
        · have : x = n := by simpa using hm
          subst this
          exact hnrest hx
      have hmirror : ∀ x, x ∈ c.toVisitSet.erase n ↔ x ∈ rest := by
        intro x
        rw [h2s.mem_erase_iff]
        constructor
        · rintro ⟨hxn, hxs⟩
          have hxq := (h4 x).1 hxs
          rcases hshape with he | he
          · rw [he] at hxq
            rcases List.mem_cons.1 hxq with he2 | hm
            · exact absurd he2 hxn
            · exact hm
          · rw [he] at hxq
            rcases List.mem_append.1 hxq with hm | hm
            · exact hm
            · exact absurd (by simpa using hm) hxn
        · intro hx
          exact ⟨fun he => hnrest (he ▸ hx), (h4 x).2 (hrestq x hx)⟩
      have hinvPop : TravInv P
          { c with visited := c.visited ++ [n], toVisitQ := rest,
                   toVisitSet := c.toVisitSet.erase n } :=
        ⟨hvisn, hrestnodup, h2s.erase n, hrestvis, hmirror, h5⟩
      split at h
      · simp only [Outcome.next.injEq] at h
        obtain ⟨rfl, rfl⟩ := h
        refine ⟨hinvPop, ?_, ?_⟩
        · intro m hm
          cases hm
          exact ⟨rfl, hnvis⟩
        · rintro (hs | ⟨m, hs⟩) <;> cases hs
      · rename_i hsent
        simp only [Outcome.next.injEq] at h
        obtain ⟨rfl, rfl⟩ := h
        have hsentf : P.sentinel n = false := by
          cases hb : P.sentinel n
          · rfl
          · exact absurd hb hsent
        have hinvSched : TravInv P
            { c with visited := c.visited ++ [n], toVisitQ := rest,
                     toVisitSet := c.toVisitSet.erase n,
                     toExecute := c.toExecute ++ P.sched n,
                     schedCalled := c.schedCalled ++ [n] } := by
          obtain ⟨g1, g2, g2s, g3, g4, -⟩ := hinvPop
          refine ⟨g1, g2, g2s, g3, g4, ?_⟩
          intro m hm
          rcases List.mem_append.1 hm with hm2 | hm2
          · exact h5 m hm2
          · have : m = n := by simpa using hm2
            subst this
            exact hsentf
        refine ⟨enqueue_inv P _ _ hinvSched, ?_, ?_⟩
        · intro m hm
          cases hm
          exact ⟨rfl, hnvis⟩
        · rintro (hs | ⟨m, hs⟩) <;> cases hs

  · split at h
    · cases h
    · rename_i a as hq
      simp only [Outcome.next.injEq] at h
      obtain ⟨rfl, rfl⟩ := h
      refine ⟨⟨h1, h2, h2s, h3, h4, h5⟩, ?_, ?_⟩
      · intro m hm
        cases hm
      · intro hs
        rfl
  · split at h
    · cases h
    · rename_i p ps hq
      simp only [Outcome.next.injEq] at h
      obtain ⟨rfl, rfl⟩ := h
      refine ⟨enqueue_inv P _ p ⟨h1, h2, h2s, h3, h4, h5⟩, ?_, ?_⟩
      · intro m hm
        cases hm
      · intro hs
        rfl

theorem chooseAction_none_iff {N : Type} [DecidableEq N] (c : TravCfg N) :
    chooseAction c = none ↔
      c.doneQ = [] ∧ c.toExecute = [] ∧ c.toVisitQ = [] := by
  unfold chooseAction
  by_cases h1 : c.doneQ = []
  · by_cases h2 : c.toExecute = []
    · by_cases h3 : c.toVisitQ = []
      · simp [h1, h2, h3]
      · simp [h1, h2, h3]
    · simp [h1, h2]
  · simp [h1]

theorem reaches_nodup_inv {N : Type} [DecidableEq N] (P : TravPar N)
    (c : TravCfg N) (tr : List (TravStep N)) (c2 : TravCfg N)
    (hr : Reaches P c tr c2) : TravInv P c →
    (c.visited ++ traversedNodes tr).Nodup ∧ TravInv P c2 := by
  induction hr with
  | refl c =>
    intro hinv
    exact ⟨by simpa [traversedNodes] using hinv.1, hinv⟩
  | ctrl hstep hrest ih =>
    rename_i cX cY cZ sX trX
    intro hinv
    obtain ⟨hinv2, htrav, hother⟩ := stepTrav_next_inv P _ _ _ hstep hinv
    obtain ⟨ihn, ihi⟩ := ih hinv2
    refine ⟨?_, ihi⟩
    cases sX with
    | traverseStep n =>
      obtain ⟨hveq, hnvis⟩ := htrav n rfl
      rw [hveq, List.append_assoc] at ihn
      simpa [traversedNodes] using ihn
    | executeStep m =>
      have hveq := hother (Or.inr ⟨m, rfl⟩)
      rw [hveq] at ihn
      simpa [traversedNodes] using ihn
    | resultsStep =>
      have hveq := hother (Or.inl rfl)
      rw [hveq] at ihn
      simpa [traversedNodes] using ihn
  | deliver payload hrest ih =>
    intro hinv
    exact ih hinv

/-- Claim C7: in traverse_async, every node appears in at most one TRAVERSE
step of any execution trace; a node satisfying the sentinel predicate is never
passed to the schedule hook and its step enqueues nothing (the to-visit deque
only shrinks and the execute deque, results queue and hook record are
untouched); and one loop iteration terminates exactly when the results queue
is empty, no node is scheduled for execution, the to-visit deque is empty and
the in-flight executor count is zero. -/
theorem traverse_async_props {N : Type} [DecidableEq N] (P : TravPar N)
    (start : List N) :
    (∀ (tr : List (TravStep N)) (c2 : TravCfg N),
      Reaches P (initCfg start) tr c2 →
      (traversedNodes tr).Nodup ∧ ∀ n ∈ c2.schedCalled, P.sentinel n = false) ∧
    (∀ c : TravCfg N, stepTrav P c = .terminated ↔
      c.doneQ = [] ∧ c.toExecute = [] ∧ c.toVisitQ = [] ∧ c.executing = 0) ∧
    (∀ (c c2 : TravCfg N) (n : N), stepTrav P c = .next (.traverseStep n) c2 →
      P.sentinel n = true →
      c2.toExecute = c.toExecute ∧ c2.schedCalled = c.schedCalled ∧
      c2.doneQ = c.doneQ ∧ (∀ x ∈ c2.toVisitQ, x ∈ c.toVisitQ) ∧
      c2.toVisitQ.length + 1 = c.toVisitQ.length ∧
      c2.visited = c.visited ++ [n]) := by
  refine ⟨?_, ?_, ?_⟩
  · have hinv0 : TravInv P (initCfg start) := by
      refine enqueue_inv P _ start ?_
      exact ⟨List.nodup_nil, List.nodup_nil, List.nodup_nil,
        fun n hn => absurd hn (List.not_mem_nil n), fun n => Iff.rfl,
        fun n hn => absurd hn (List.not_mem_nil n)⟩
    intro tr c2 hr
    obtain ⟨hn, hinv2⟩ := reaches_nodup_inv P _ tr c2 hr hinv0
    refine ⟨?_, hinv2.2.2.2.2.2⟩
    simpa [initCfg, enqueue] using hn
  · intro c
    constructor
    · intro ht
      unfold stepTrav at ht
      split at ht
      · rename_i hnone
        split at ht
        · rename_i hexec
          obtain ⟨hd, he, hv⟩ := (chooseAction_none_iff c).1 hnone
          exact ⟨hd, he, hv, hexec⟩
        · cases ht
      · split at ht
        · cases ht
        · split at ht
          · cases ht
          · cases ht
      · split at ht
        · cases ht
        · cases ht
      · split at ht
        · cases ht
        · cases ht
    · rintro ⟨hd, he, hv, hx⟩
      unfold stepTrav
      rw [(chooseAction_none_iff c).2 ⟨hd, he, hv⟩]
      simp [hx]
  · intro c c2 n h hsent
    unfold stepTrav at h
    split at h
    · split at h
      · cases h
      · cases h
    · split at h
      · cases h
      · rename_i m rest hpop
        have hshape := popSD_spec P.depth c.toVisitQ m rest hpop
        split at h
        · simp only [Outcome.next.injEq, TravStep.traverseStep.injEq] at h
          obtain ⟨rfl, rfl⟩ := h
          refine ⟨rfl, rfl, rfl, ?_, ?_, rfl⟩
          · intro x hx
            rcases hshape with he | he
            · rw [he]
              exact List.mem_cons_of_mem _ hx
            · rw [he]
              exact List.mem_append.2 (Or.inl hx)
          · rcases hshape with he | he
            · rw [he]
              rfl
            · rw [he]
              simp
        · rename_i hsf
          simp only [Outcome.next.injEq, TravStep.traverseStep.injEq] at h
          obtain ⟨rfl, -⟩ := h
          exact absurd hsent hsf
    · split at h
      · cases h
      · simp at h
    · split at h
      · cases h
      · simp at h

theorem traverse_async_props_witness :
    (traversedNodes [TravStep.traverseStep (0 : Nat)]).Nodup ∧
    (∀ n ∈ c7b.schedCalled, p7.sentinel n = false) ∧
    stepTrav p7 c7b ≠ Outcome.terminated := by
  have h := traverse_async_props p7 [0]
  have hr : Reaches p7 (initCfg [0]) [TravStep.traverseStep 0] c7b :=
    Reaches.ctrl (by decide) (Reaches.refl c7b)
  obtain ⟨h1, h2⟩ := h.1 [TravStep.traverseStep 0] c7b hr
  refine ⟨h1, h2, ?_⟩
  intro ht
  have hcond := (h.2.1 c7b).1 ht
  exact absurd hcond.2.1 (by decide)

theorem lookup_mem {κ β : Type} [BEq κ] [LawfulBEq κ] (k : κ) (v : β) :
    ∀ l : List (κ × β), List.lookup k l = some v → (k, v) ∈ l := by
  intro l
  induction l with
  | nil => intro h; cases h
  | cons p ps ih =>
    intro h
    obtain ⟨pk, pv⟩ := p
    rw [List.lookup_cons] at h
    cases hb : k == pk with
    | true =>
      rw [hb] at h
      simp only [Option.some.injEq] at h
      have : k = pk := eq_of_beq hb
      subst this
      subst h
      exact List.mem_cons_self _ _
    | false =>
      rw [hb] at h
      exact List.mem_cons_of_mem _ (ih h)

theorem lookup_filter_keep {β : Type} (p : Str × β → Bool) (h : Str) :
    ∀ l : List (Str × β), (∀ v, p (h, v) = true) →
    List.lookup h (l.filter p) = List.lookup h l := by
  intro l hq
  induction l with
  | nil => rfl
  | cons pr ps ih =>
    obtain ⟨pk, pv⟩ := pr
    by_cases hk : h = pk
    · subst hk
      rw [List.filter_cons, if_pos (hq pv), lookup_cons_self, lookup_cons_self]
    · rw [List.filter_cons]
      by_cases hp : p (pk, pv) = true
      · rw [if_pos hp, lookup_cons_ne pk h pv _ hk, lookup_cons_ne pk h pv ps hk]
        exact ih
      · rw [if_neg hp, lookup_cons_ne pk h pv ps hk]
        exact ih

/-- The children loop of the tree walk: the dict, tree and stack only grow,
new dict entries agree with the index, new stack entries already appear in the
tree, and every child of the popped task ends up on the stack. -/
theorem walkStep_spec (s : CellarSt) (path : Str) :
    ∀ (chs : List (Str × Str)) (tasks : List (Str × TaskObject))
      (tree stack : List (Str × Str)) (tasks1 : List (Str × TaskObject))
      (tree1 stack1 : List (Str × Str)),
    walkStep s path tasks tree stack chs = some (tasks1, tree1, stack1) →
    (∀ x ∈ tasks, x ∈ tasks1) ∧ (∀ x ∈ tree, x ∈ tree1) ∧
    (∀ x ∈ stack, x ∈ stack1) ∧
    (∀ p2 ∈ tasks1, p2 ∈ tasks ∨ taskObjOf s p2.1 = some p2.2) ∧
    (∀ hp ∈ stack1, hp ∈ stack ∨ ∃ pq, (pq, hp.1) ∈ tree1) ∧
    (∀ nc ∈ chs, (nc.2, childPath path nc.1) ∈ stack1) := by
  intro chs
  induction chs with
  | nil =>
    intro tasks tree stack tasks1 tree1 stack1 h
    simp only [walkStep, Option.some.injEq, Prod.mk.injEq] at h
    obtain ⟨rfl, rfl, rfl⟩ := h
    exact ⟨fun x hx => hx, fun x hx => hx, fun x hx => hx, fun p2 hp => Or.inl hp,
      fun hp hm => Or.inl hm, fun nc hnc => absurd hnc (List.not_mem_nil nc)⟩
  | cons nc chs2 ih =>
    intro tasks tree stack tasks1 tree1 stack1 h
    obtain ⟨name, ch⟩ := nc
    simp only [walkStep] at h
    have htreemem : (childPath path name, ch) ∈ tree ++ [(childPath path name, ch)] :=
      List.mem_append.2 (Or.inr (List.mem_cons_self _ _))
    cases hl : List.lookup ch tasks with
    | some T0 =>
      rw [hl] at h
      obtain ⟨m1, m2, m3, m4, m5, m6⟩ := ih tasks _ _ tasks1 tree1 stack1 h
      refine ⟨m1, fun x hx => m2 _ (List.mem_append.2 (Or.inl hx)), ?_, m4, ?_, ?_⟩
      · intro x hx
        exact m3 _ (List.mem_cons_of_mem _ hx)
      · intro hp hm
        rcases m5 hp hm with hm2 | hm2
        · rcases List.mem_cons.1 hm2 with rfl | hm3
          · exact Or.inr ⟨childPath path name, m2 _ htreemem⟩
          · exact Or.inl hm3
        · exact Or.inr hm2
      · intro nc2 hnc
        rcases List.mem_cons.1 hnc with rfl | hnc2
        · exact m3 _ (List.mem_cons_self _ _)
        · exact m6 nc2 hnc2
    | none =>
      rw [hl] at h
      cases hdb : taskObjOf s ch with
      | none => rw [hdb] at h; cases h
      | some T =>
        rw [hdb] at h
        obtain ⟨m1, m2, m3, m4, m5, m6⟩ := ih _ _ _ tasks1 tree1 stack1 h
        refine ⟨?_, fun x hx => m2 _ (List.mem_append.2 (Or.inl hx)), ?_, ?_, ?_, ?_⟩
        · intro x hx
          exact m1 _ (List.mem_append.2 (Or.inl hx))
        · intro x hx
          exact m3 _ (List.mem_cons_of_mem _ hx)
        · intro p2 hp
          rcases m4 p2 hp with hm2 | hm2
          · rcases List.mem_append.1 hm2 with hm3 | hm3
            · exact Or.inl hm3
            · have : p2 = (ch, T) := by simpa using hm3
              subst this
              exact Or.inr hdb
          · exact Or.inr hm2
        · intro hp hm
          rcases m5 hp hm with hm2 | hm2
          · rcases List.mem_cons.1 hm2 with rfl | hm3
            · exact Or.inr ⟨childPath path name, m2 _ htreemem⟩
            · exact Or.inl hm3
          · exact Or.inr hm2
        · intro nc2 hnc
          rcases List.mem_cons.1 hnc with rfl | hnc2
          · exact m3 _ (List.mem_cons_self _ _)
          · exact m6 nc2 hnc2

/-- The walk only extends the dict and the tree. -/
theorem walkTree_mono (s : CellarSt) :
    ∀ (fuel : Nat) (tasks : List (Str × TaskObject)) (tree stack : List (Str × Str))
      (res : List (Str × TaskObject) × List (Str × Str)),
    walkTree s fuel tasks tree stack = some res →
    (∀ x ∈ tasks, x ∈ res.1) ∧ (∀ x ∈ tree, x ∈ res.2) := by
  intro fuel
  induction fuel with
  | zero => intro tasks tree stack res h; cases h
  | succ fuel ih =>
    intro tasks tree stack res h
    cases stack with
    | nil =>
      simp only [walkTree, Option.some.injEq] at h
      subst h
      exact ⟨fun x hx => hx, fun x hx => hx⟩
    | cons hp rest =>
      obtain ⟨h0, p0⟩ := hp
      simp only [walkTree, Option.bind_eq_bind, Option.bind_eq_some] at h
      obtain ⟨T, hT, ⟨⟨tasks1, tree1, stack1⟩, hws, hrec⟩⟩ := h
      obtain ⟨m1, m2, -, -, -, -⟩ := walkStep_spec s p0 T.children tasks tree rest
        tasks1 tree1 stack1 hws
      obtain ⟨g1, g2⟩ := ih tasks1 tree1 stack1 res hrec
      exact ⟨fun x hx => g1 x (m1 x hx), fun x hx => g2 x (m2 x hx)⟩

/-- Completeness of the tree walk: when it finishes, every task reachable by
child edges from a stack entry appears in the resulting tree and dict, with
its index object. -/
theorem walkTree_reach (s : CellarSt) :
    ∀ (fuel : Nat) (tasks : List (Str × TaskObject)) (tree stack : List (Str × Str))
      (res : List (Str × TaskObject) × List (Str × Str)),
    walkTree s fuel tasks tree stack = some res →
    TasksConsistent s tasks →
    (∀ hp ∈ stack, ∃ pq, (pq, hp.1) ∈ tree) →
    ∀ hp ∈ stack, ∀ h2, ChildStar s hp.1 h2 →
      (∃ pq, (pq, h2) ∈ res.2) ∧ ∃ T, (h2, T) ∈ res.1 ∧ taskObjOf s h2 = some T := by
  intro fuel
  induction fuel with
  | zero => intro tasks tree stack res h; cases h
  | succ fuel ih =>
    intro tasks tree stack res h hcons hst
    cases stack with
    | nil =>
      intro hp hm
      exact absurd hm (List.not_mem_nil hp)
    | cons hp0 rest =>
      obtain ⟨h0, p0⟩ := hp0
      simp only [walkTree, Option.bind_eq_bind, Option.bind_eq_some] at h
      obtain ⟨T0, hT0, ⟨⟨tasks1, tree1, stack1⟩, hws, hrec⟩⟩ := h
      obtain ⟨m1, m2, m3, m4, m5, m6⟩ := walkStep_spec s p0 T0.children tasks tree rest
        tasks1 tree1 stack1 hws
      have hcons1 : TasksConsistent s tasks1 := by
        intro p2 hp2
        rcases m4 p2 hp2 with hm | hm
        · exact hcons p2 hm
        · exact hm
      have hst1 : ∀ hp ∈ stack1, ∃ pq, (pq, hp.1) ∈ tree1 := by
        intro hp hm
        rcases m5 hp hm with hm2 | hm2
        · obtain ⟨pq, hpq⟩ := hst _ (List.mem_cons_of_mem _ hm2)
          exact ⟨pq, m2 _ hpq⟩
        · exact hm2
      have ihall := ih tasks1 tree1 stack1 res hrec hcons1 hst1
      have hmono := walkTree_mono s fuel tasks1 tree1 stack1 res hrec
      have hT0db : taskObjOf s h0 = some T0 :=
        hcons (h0, T0) (lookup_mem h0 T0 tasks hT0)
      intro hp hm h2 hstar
      rcases List.mem_cons.1 hm with rfl | hmrest
      · cases hstar with
        | refl =>
          obtain ⟨pq, hpq⟩ := hst _ (List.mem_cons_self _ _)
          refine ⟨⟨pq, hmono.2 _ (m2 _ hpq)⟩, T0, hmono.1 _ (m1 _
            (lookup_mem _ T0 tasks hT0)), hT0db⟩
        | step h c h2 T name hT hc hs =>
          have hTT0 : T = T0 := by
            rw [hT0db] at hT
            exact (Option.some.inj hT).symm
          subst hTT0
          have hcstack : (c, childPath p0 name) ∈ stack1 := m6 (name, c) hc
          exact ihall (c, childPath p0 name) hcstack h2 hs
      · exact ihall hp (m3 _ hmrest) h2 hstar

theorem childStar_trans (s : CellarSt) (a b c : Str) (hab : ChildStar s a b) :
    ChildStar s b c → ChildStar s a c := by
  induction hab with
  | refl h => exact fun hbc => hbc
  | step h d h2 T2 name2 hT2 hc2 hs ih =>
    exact fun hbc => ChildStar.step h d c T2 name2 hT2 hc2 (ih hbc)

theorem childStar_snoc (s : CellarSt) (a b c : Str) (T : TaskObject) (name : Str)
    (hab : ChildStar s a b) (hT : taskObjOf s b = some T)
    (hc : (name, c) ∈ T.children) : ChildStar s a c :=
  childStar_trans s a b c hab (ChildStar.step b c c T name hT hc (ChildStar.refl c))

theorem reachTask_to_star (s : CellarSt) (h : Str) (hr : ReachTask s h) :
    ∃ t p, (t, p) ∈ buildTargets s ∧ ChildStar s t h := by
  induction hr with
  | target h p hmem => exact ⟨h, p, hmem, ChildStar.refl h⟩
  | child h c T name hr2 hT hc ih =>
    obtain ⟨t, p, hmem, hstar⟩ := ih
    exact ⟨t, p, hmem, childStar_snoc s t h c T name hstar hT hc⟩

theorem buildTasks_consistent (s : CellarSt) : TasksConsistent s (buildTasks s) := by
  intro p hp
  unfold buildTasks at hp
  obtain ⟨h, -, hmap⟩ := List.mem_filterMap.1 hp
  cases hob : taskObjOf s h with
  | none => rw [hob] at hmap; cases hmap
  | some T =>
    rw [hob] at hmap
    simp only [Option.map_some', Option.some.injEq] at hmap
    rw [← hmap]
    exact hob

theorem treeInsert_perm (p : Str × Str) :
    ∀ l, List.Perm (treeInsert p l) (p :: l) := by
  intro l
  induction l with
  | nil => exact List.Perm.refl _
  | cons q qs ih =>
    show List.Perm (if treeLT q p = true then q :: treeInsert p qs else p :: q :: qs) _
    by_cases hlt : treeLT q p = true
    · rw [if_pos hlt]
      exact (ih.cons q).trans (List.Perm.swap p q qs)
    · rw [if_neg hlt]

theorem treeSort_perm : ∀ l, List.Perm (treeSort l) l := by
  intro l
  induction l with
  | nil => exact List.Perm.refl _
  | cons p ps ih =>
    exact (treeInsert_perm p (treeSort ps)).trans (ih.cons p)

/-- Folding dict assignments over pairs with duplicate-free keys appends them
all, collapsing nothing. -/
theorem foldl_dictAssign_eq :
    ∀ (l : List (Str × Str)) (acc : List (Str × Str)),
    ((acc ++ l).map Prod.fst).Nodup → l.foldl dictAssign acc = acc ++ l := by
  intro l
  induction l with
  | nil =>
    intro acc h
    simp
  | cons p ps ih =>
    intro acc h
    have hkey : List.lookup p.1 acc = none := by
      cases hl : List.lookup p.1 acc with
      | none => rfl
      | some v =>
        exfalso
        have hmem : p.1 ∈ acc.map Prod.fst :=
          mem_keys_of_lookup_isSome p.1 acc (by rw [hl]; rfl)
        rw [List.map_append] at h
        exact (List.nodup_append.1 h).2.2 hmem
          (List.mem_map.2 ⟨p, List.mem_cons_self p ps, rfl⟩)
    have hassign : dictAssign acc p = acc ++ [p] := by
      unfold dictAssign
      rw [hkey]
      rfl
    rw [List.foldl_cons, hassign]
    have hrec := ih (acc ++ [p]) (by rw [List.append_assoc]; exact h)
    rw [hrec, List.append_assoc]
    rfl

theorem dictOf_eq_self (l : List (Str × Str)) (h : (l.map Prod.fst).Nodup) :
    dictOf l = l := by
  have hres := foldl_dictAssign_eq l [] (by simpa using h)
  simpa [dictOf] using hres

/-- Claim C8 counterexample: with a current build holding two targets at the
nested virtual paths root and root/c, where the root task also has a child
named c with a different hash, the walked tree has two entries at path root/c
and the Tree dict keeps only the sorted-last one, so gc deletes the tasks row
of the collapsed-away hash h2c although h2c is itself a target of the current
build. -/
theorem gc_duplicate_path_cex :
    (h2c, ("root/c").data) ∈ buildTargets s8c ∧
    ReachTask s8c h2c ∧
    List.lookup h2c s8c.tasks = some (t8c2, State.CLEAN) ∧
    gcRun s8c 9 = some s8cAfter ∧
    List.lookup h2c s8cAfter.tasks = none := by
  refine ⟨by decide, ReachTask.target h2c (("root/c").data) (by decide),
    by decide, by decide, by decide⟩

/-- Claim C8, amended: provided the virtual paths of the walked build tree are
duplicate-free, so that the Tree dict collapse drops no hash, gc never deletes
anything reachable from the current build: for every task reachable by child
edges from the targets of the most recent build, its row in the tasks table
survives, and the blob of every file hash among its inputs and outputs
survives; gc only ever removes rows and files, never adds any. -/
theorem gc_retains_build_reachable (s s2 : CellarSt) (fuel : Nat)
    (hgc : gcRun s fuel = some s2) (hnodup : treePathsNodup s fuel = true)
    (h : Str) (hreach : ReachTask s h) :
    (∀ row : TaskObject × State, List.lookup h s.tasks = some row →
      List.lookup h s2.tasks = some row) ∧
    (∀ T : TaskObject, taskObjOf s h = some T →
      ∀ f ∈ T.inputs.map (·.2) ++ (T.outputs.getD []).map (·.2),
      ∀ e ∈ s.objects, e.1.1 ++ e.1.2 = f → e ∈ s2.objects) ∧
    (∀ x ∈ s2.tasks, x ∈ s.tasks) ∧ (∀ e ∈ s2.objects, e ∈ s.objects) := by
  simp only [gcRun, get_tree, Option.bind_eq_bind, Option.bind_eq_some,
    Option.some.injEq, Prod.mk.injEq] at hgc
  obtain ⟨⟨objs2, tree2⟩, ⟨⟨objs, tree⟩, hwalk, rfl, rfl⟩, hs2⟩ := hgc
  have hnd : (tree.map Prod.fst).Nodup := by
    unfold treePathsNodup at hnodup
    rw [hwalk] at hnodup
    exact of_decide_eq_true hnodup
  have hnd2 : ((treeSort tree).map Prod.fst).Nodup :=
    ((treeSort_perm tree).map Prod.fst).nodup_iff.2 hnd
  have hcollapse : dictOf (treeSort tree) = treeSort tree := dictOf_eq_self _ hnd2
  have htasks2 : s2.tasks = s.tasks.filter fun row =>
      row.1 ∈ retainOf objs (dictOf (treeSort tree)) := by
    rw [← hs2]
  have hobjects2 : s2.objects = s.objects.filter fun f =>
      (f.1.1 ++ f.1.2) ∈ retainOf objs (dictOf (treeSort tree)) := by
    rw [← hs2]
  obtain ⟨t, p, htmem, hstar⟩ := reachTask_to_star s h hreach
  have hst0 : ∀ hp ∈ buildTargets s, ∃ pq,
      (pq, hp.1) ∈ (buildTargets s).map fun tg => (tg.2, tg.1) := by
    intro hp hm
    exact ⟨hp.2, List.mem_map.2 ⟨hp, hm, rfl⟩⟩
  have hres := walkTree_reach s fuel (buildTasks s)
    ((buildTargets s).map fun tg => (tg.2, tg.1)) (buildTargets s) (objs, tree)
    hwalk (buildTasks_consistent s) hst0 (t, p) htmem h hstar
  obtain ⟨⟨pq, hpq⟩, T1, hT1objs, hT1db⟩ := hres
  have hretain : h ∈ retainOf objs (dictOf (treeSort tree)) := by
    rw [hcollapse]
    unfold retainOf
    refine List.mem_append.2 (Or.inl ?_)
    exact List.mem_map.2 ⟨(pq, h), ((treeSort_perm tree).mem_iff).2 hpq, rfl⟩
  refine ⟨?_, ?_, ?_, ?_⟩
  · intro row hrow
    rw [htasks2]
    refine (lookup_filter_keep _ h s.tasks ?_).trans hrow
    intro v
    exact decide_eq_true hretain
  · intro T hT f hf e he hehash
    have hTT1 : T1 = T := by
      rw [hT1db] at hT
      exact Option.some.inj hT
    subst hTT1
    have hfret : f ∈ retainOf objs (dictOf (treeSort tree)) := by
      unfold retainOf
      refine List.mem_append.2 (Or.inr ?_)
      exact List.mem_flatMap.2 ⟨(h, T1), hT1objs, hf⟩
    rw [hobjects2]
    refine List.mem_filter.2 ⟨he, ?_⟩
    rw [hehash]
    exact decide_eq_true hfret
  · intro x hx
    rw [htasks2] at hx
    exact List.mem_of_mem_filter hx
  · intro e he
    rw [hobjects2] at he
    exact List.mem_of_mem_filter he

theorem gc_retains_build_reachable_witness :
    gcRun s8 3 = some s8After ∧
    List.lookup child8H s8After.tasks = some (t8child, State.CLEAN) ∧
    (objPath f8a, fe8) ∈ s8After.objects := by
  have hgc : gcRun s8 3 = some s8After := by decide
  have htn : treePathsNodup s8 3 = true := by decide
  have hreach : ReachTask s8 child8H :=
    ReachTask.child root8H child8H t8root ("c".data)
      (ReachTask.target root8H ("root".data) (by decide)) (by decide) (by decide)
  have h := gc_retains_build_reachable s8 s8After 3 hgc htn child8H hreach
  have hroot := gc_retains_build_reachable s8 s8After 3 hgc htn root8H
    (ReachTask.target root8H ("root".data) (by decide))
  refine ⟨hgc, h.1 (t8child, State.CLEAN) (by decide), ?_⟩
  exact hroot.2.1 t8root (by decide) f8a (by decide) (objPath f8a, fe8)
    (by decide) (by decide)

end Mona